import Mathlib

/-!
Verification development for the NIL method-evolution tracker.

The definitions below are shallow embeddings of the Python sources:
  * `src/analysis/similarity_calculator.py` (class `SimilarityCalculator`)
  * `src/analysis/method_tracker.py` (class `MethodTracker`)

Python `int` becomes `ℤ` (or `ℕ` where the value is provably a count),
Python `float("inf")` / position entries of the Hunt-Szymanski threshold
array become `WithTop ℤ` (with `⊤` for infinity), Python dictionaries keyed
by `full_id` become lists of records with pairwise-distinct `full_id`
(Python dicts preserve insertion order, and the tracker builds its
snapshot dicts with `methods[method_info.full_id] = method_info`).
Python's built-in `hash` on token tuples is an arbitrary fixed function,
so it is modelled as an explicit parameter `hsh : List ℤ → ℤ`; every
theorem about the N-gram scorer is proved for all such functions, hence
in particular for CPython's actual hash.
-/

namespace NIL

/-- Python list slicing `xs[start:stop]` (step 1) on a list of integers:
negative `stop`/`start` count from the end, and both bounds are clamped
to the list. Needed because `_create_ngrams` slices `tokens[i : i + gram_size]`
and `gram_size` is not validated anywhere, so it may be negative. -/
def pySlice (xs : List ℤ) (start stop : ℤ) : List ℤ :=
  let n : ℤ := xs.length
  let s : ℤ := if start < 0 then max 0 (n + start) else min start n
  let e : ℤ := if stop < 0 then max 0 (n + stop) else min stop n
  (xs.take e.toNat).drop s.toNat

/-- `SimilarityCalculator._create_ngrams`: the distinct set of hashed
windows `tokens[i : i + gram_size]` for `i in range(len(tokens) - gram_size + 1)`,
empty when `len(tokens) < gram_size`. -/
def create_ngrams (hsh : List ℤ → ℤ) (gram_size : ℤ) (tokens : List ℤ) : Finset ℤ :=
  if (tokens.length : ℤ) < gram_size then ∅
  else ((List.range ((tokens.length : ℤ) - gram_size + 1).toNat).map
      (fun i : ℕ => hsh (pySlice tokens (i : ℤ) ((i : ℤ) + gram_size)))).toFinset

/-- `SimilarityCalculator.calc_ngram_similarity`:
`intersection * 100 // min(|set_a|, |set_b|)`, with the guards of the source. -/
def calc_ngram_similarity (hsh : List ℤ → ℤ) (gram_size : ℤ) (tokens_a tokens_b : List ℤ) : ℕ :=
  if tokens_a = [] ∨ tokens_b = [] then 0
  else
    let ngrams_a := create_ngrams hsh gram_size tokens_a
    let ngrams_b := create_ngrams hsh gram_size tokens_b
    if ngrams_a = ∅ ∨ ngrams_b = ∅ then 0
    else
      let intersection := (ngrams_a ∩ ngrams_b).card
      let min_size := min ngrams_a.card ngrams_b.card
      if 0 < min_size then intersection * 100 / min_size else 0

/-- The inverted index of `_hunt_szymanski_lcs`: `inverted_indices[t]` is the
list of positions of `t` in `longer`, in decreasing order (the Python loop
runs `for i in range(m - 1, -1, -1)` and appends). -/
def token_positions (longer : List ℤ) (t : ℤ) : List ℕ :=
  ((List.range longer.length).filter (fun i => longer.getD i 0 == t)).reverse

/-- The binary-search loop of `_hunt_szymanski_lcs`:
`while left < right: mid = (left + right + 1) // 2; if lcs[mid] < pos: left = mid else right = mid - 1`.
The loop shrinks `right - left` by at least one per iteration, so running
the structural recursion below with any `fuel ≥ right - left` computes the
loop's exit value of `left`; callers pass `fuel = right - left`. -/
def hs_bsearch (arr : List (WithTop ℤ)) (pos : ℤ) : ℕ → ℕ → ℕ → ℕ
  | 0, left, _ => left
  | fuel + 1, left, right =>
    if left < right then
      let mid := (left + right + 1) / 2
      if arr.getD mid ⊤ < (pos : WithTop ℤ) then hs_bsearch arr pos fuel mid right
      else hs_bsearch arr pos fuel left (mid - 1)
    else left

/-- One update step of `_hunt_szymanski_lcs` for a single match position:
binary search, then `if lcs[left] < pos < lcs[left + 1]: lcs[left + 1] = pos`.
(`List.set` out of range is a no-op; the corresponding Python index
`left + 1 = n + 1` is proved unreachable below, see `hs_fold_run`.) -/
def hs_update (n : ℕ) (arr : List (WithTop ℤ)) (pos : ℕ) : List (WithTop ℤ) :=
  let left := hs_bsearch arr (pos : ℤ) n 0 n
  if arr.getD left ⊤ < ((pos : ℤ) : WithTop ℤ) ∧ ((pos : ℤ) : WithTop ℤ) < arr.getD (left + 1) ⊤ then
    arr.set (left + 1) ((pos : ℤ) : WithTop ℤ)
  else arr

/-- The main loop of `_hunt_szymanski_lcs`: for each token of `shorter` in
order, fold the update over its match positions in `longer` (largest first);
a token absent from the inverted index contributes an empty fold, which is
exactly the Python `continue`. -/
def hs_run (longer : List ℤ) (n : ℕ) (shorter : List ℤ) (arr : List (WithTop ℤ)) :
    List (WithTop ℤ) :=
  shorter.foldl (fun a t => (token_positions longer t).foldl (hs_update n) a) arr

/-- The final scan of `_hunt_szymanski_lcs`:
`for k in range(n, -1, -1): if lcs[k] != inf: return k`, and `return 0`. -/
def hs_last_finite (arr : List (WithTop ℤ)) : ℕ → ℕ
  | 0 => 0
  | k + 1 => if arr.getD (k + 1) ⊤ ≠ ⊤ then k + 1 else hs_last_finite arr k

/-- `SimilarityCalculator._hunt_szymanski_lcs`. -/
def hunt_szymanski_lcs (a b : List ℤ) : ℕ :=
  let p := if a.length < b.length then (a, b) else (b, a)
  let shorter := p.1
  let longer := p.2
  let n := shorter.length
  let m := longer.length
  if n = 0 ∨ m = 0 then 0
  else hs_last_finite (hs_run longer n shorter (((-1 : ℤ) : WithTop ℤ) :: List.replicate n ⊤)) n

/-- `SimilarityCalculator.calc_lcs_similarity`:
`lcs_length * 100 // min(len(a), len(b))`, with the guards of the source. -/
def calc_lcs_similarity (tokens_a tokens_b : List ℤ) : ℕ :=
  if tokens_a = [] ∨ tokens_b = [] then 0
  else
    let lcs_length := hunt_szymanski_lcs tokens_a tokens_b
    let min_len := min tokens_a.length tokens_b.length
    if 0 < min_len then lcs_length * 100 / min_len else 0

example : hunt_szymanski_lcs [1, 2, 3] [3, 1, 2] = 2 := by decide
example : hunt_szymanski_lcs [1, 2, 3, 4, 5] [10, 20, 30, 40, 50] = 0 := by decide
example : hunt_szymanski_lcs [1, 2, 3, 4, 5, 6, 7, 8, 9, 10] [1, 2, 3, 4, 5, 6, 7, 8, 9, 10] = 10 := by
  decide
example : calc_lcs_similarity [1, 2, 3, 4, 5, 6, 7, 8, 9, 10] [1, 2, 3, 99, 5, 6, 7, 88, 9, 10] = 80 := by
  decide
example : calc_ngram_similarity (fun _ => 0) 5 [1, 2, 3, 4] [1, 2, 3, 4, 5] = 0 := by decide
example : calc_ngram_similarity (fun l => l.foldl (fun a x => a * 31 + x) 7) 5
    [1, 2, 3, 4, 5, 6] [1, 2, 3, 4, 5, 6] = 100 := by decide

/-! ### The longest-common-subsequence specification

`lcsLen` is the textbook dynamic-programming definition of the LCS length;
`lcsLen_exists` and `lcsLen_le` prove that it is exactly the maximal length
of a common `List.Sublist` (order preserved, gaps allowed).  The
Hunt-Szymanski implementation is then proved equal to it. -/

/-- Textbook LCS length (naive recursion), used purely as the specification
the Hunt-Szymanski implementation is verified against. -/
def lcsLen : List ℤ → List ℤ → ℕ
  | [], _ => 0
  | _ :: _, [] => 0
  | x :: xs, y :: ys =>
    if x = y then lcsLen xs ys + 1
    else max (lcsLen (x :: xs) ys) (lcsLen xs (y :: ys))
termination_by a b => a.length + b.length
decreasing_by all_goals simp_arith

/-- Some common subsequence realizes `lcsLen`. -/
theorem lcsLen_exists (a b : List ℤ) :
    ∃ c : List ℤ, c.Sublist a ∧ c.Sublist b ∧ c.length = lcsLen a b := by
  induction a, b using lcsLen.induct with
  | case1 b => exact ⟨[], List.nil_sublist _, List.nil_sublist _, by simp [lcsLen]⟩
  | case2 x xs => exact ⟨[], List.nil_sublist _, List.nil_sublist _, by simp [lcsLen]⟩
  | case3 xs y ys ih =>
    obtain ⟨c, hca, hcb, hlen⟩ := ih
    exact ⟨y :: c, List.cons_sublist_cons.mpr hca, List.cons_sublist_cons.mpr hcb,
      by simp [lcsLen, hlen]⟩
  | case4 x xs y ys hne ih1 ih2 =>
    rcases le_total (lcsLen xs (y :: ys)) (lcsLen (x :: xs) ys) with hle | hle
    · obtain ⟨c, hca, hcb, hlen⟩ := ih1
      refine ⟨c, hca, hcb.trans (List.sublist_cons_self y ys), ?_⟩
      simp only [lcsLen, if_neg hne]
      omega
    · obtain ⟨c, hca, hcb, hlen⟩ := ih2
      refine ⟨c, hca.trans (List.sublist_cons_self x xs), hcb, ?_⟩
      simp only [lcsLen, if_neg hne]
      omega

/-- Every common subsequence is bounded by `lcsLen`. -/
theorem lcsLen_le (a b : List ℤ) :
    ∀ c : List ℤ, c.Sublist a → c.Sublist b → c.length ≤ lcsLen a b := by
  induction a, b using lcsLen.induct with
  | case1 b =>
    intro c hca _
    simp [List.sublist_nil.mp hca, lcsLen]
  | case2 x xs =>
    intro c _ hcb
    simp [List.sublist_nil.mp hcb, lcsLen]
  | case3 xs y ys ih =>
    intro c hca hcb
    have hgoal : lcsLen (y :: xs) (y :: ys) = lcsLen xs ys + 1 := by simp [lcsLen]
    rw [hgoal]
    rcases List.sublist_cons_iff.mp hca with hxs | ⟨r, rfl, hr⟩
    · rcases List.sublist_cons_iff.mp hcb with hys | ⟨r', rfl, hr'⟩
      · exact (ih c hxs hys).trans (Nat.le_succ _)
      · have hr'xs : r'.Sublist xs := (List.sublist_cons_self y r').trans hxs
        simpa using Nat.succ_le_succ (ih r' hr'xs hr')
    · rcases List.sublist_cons_iff.mp hcb with hys | ⟨r', hr'eq, hr'⟩
      · have hrys : r.Sublist ys := (List.sublist_cons_self y r).trans hys
        simpa using Nat.succ_le_succ (ih r hr hrys)
      · have hrr : r = r' := by injection hr'eq
        subst hrr
        simpa using Nat.succ_le_succ (ih r hr hr')
  | case4 x xs y ys hne ih1 ih2 =>
    intro c hca hcb
    simp only [lcsLen, if_neg hne]
    rcases List.sublist_cons_iff.mp hca with hxs | ⟨r, rfl, hr⟩
    · exact le_max_of_le_right (ih2 c hxs hcb)
    · rcases List.sublist_cons_iff.mp hcb with hys | ⟨r', hr'eq, _⟩
      · exact le_max_of_le_left (ih1 _ (List.cons_sublist_cons.mpr hr) hys)
      · have hxy : x = y := by injection hr'eq
        exact absurd hxy hne

/-- `lcsLen` is symmetric (a consequence of the extremal characterization). -/
theorem lcsLen_comm (a b : List ℤ) : lcsLen a b = lcsLen b a := by
  obtain ⟨c, hca, hcb, hlen⟩ := lcsLen_exists a b
  obtain ⟨d, hdb, hda, hlen'⟩ := lcsLen_exists b a
  exact le_antisymm (hlen ▸ lcsLen_le b a c hcb hca) (hlen' ▸ lcsLen_le a b d hda hdb)

/-- `lcsLen a a = a.length`. -/
theorem lcsLen_self (a : List ℤ) : lcsLen a a = a.length :=
  le_antisymm
    (by obtain ⟨c, hca, _, hlen⟩ := lcsLen_exists a a; exact hlen ▸ hca.length_le)
    (lcsLen_le a a a (List.Sublist.refl a) (List.Sublist.refl a))

/-! ### The threshold-array semantics of Hunt-Szymanski

`HasCS s l k j` says a common subsequence of `s` and the first `j` elements
of `l` of length `k` exists; `thr s l k` is the classical Hunt-Szymanski
threshold value: `-1` for `k = 0`, otherwise the least position `j` in `l`
such that a length-`k` common subsequence of `s` and `l.take (j+1)` exists
(⊤ when none exists).  The algorithm's array is proved to carry exactly
these values. -/

def HasCS (s l : List ℤ) (k j : ℕ) : Prop :=
  ∃ c : List ℤ, c.length = k ∧ c.Sublist s ∧ c.Sublist (l.take j)

theorem take_sublist_take (l : List ℤ) {j j' : ℕ} (h : j ≤ j') :
    (l.take j).Sublist (l.take j') := by
  have : (l.take j').take j = l.take j := by rw [List.take_take, min_eq_left h]
  rw [← this]
  exact List.take_sublist _ _

theorem HasCS_mono_j {s l : List ℤ} {k j j' : ℕ} (h : HasCS s l k j) (hj : j ≤ j') :
    HasCS s l k j' := by
  obtain ⟨c, hlen, hs, hl⟩ := h
  exact ⟨c, hlen, hs, hl.trans (take_sublist_take l hj)⟩

theorem HasCS_zero (s l : List ℤ) (j : ℕ) : HasCS s l 0 j :=
  ⟨[], rfl, List.nil_sublist _, List.nil_sublist _⟩

theorem HasCS_mono_k {s l : List ℤ} {k k' j : ℕ} (hk : k ≤ k') (h : HasCS s l k' j) :
    HasCS s l k j := by
  obtain ⟨c, hlen, hs, hl⟩ := h
  exact ⟨c.take k, by simp [hlen, min_eq_left hk], (List.take_sublist _ _).trans hs,
    (List.take_sublist _ _).trans hl⟩

theorem HasCS.le_slen {s l : List ℤ} {k j : ℕ} (h : HasCS s l k j) : k ≤ s.length := by
  obtain ⟨c, hlen, hs, _⟩ := h
  exact hlen ▸ hs.length_le

/-- Splitting a sublist relation `c ++ [x] <+ L` at the final element:
`x` occurs at some position `q` of `L` and `c` is a sublist of `L.take q`. -/
theorem sublist_concat_split {c : List ℤ} {x : ℤ} {L : List ℤ}
    (h : (c ++ [x]).Sublist L) :
    ∃ q : ℕ, q < L.length ∧ L.getD q 0 = x ∧ c.Sublist (L.take q) := by
  rw [List.append_sublist_iff] at h
  obtain ⟨r₁, r₂, hL, h₁, h₂⟩ := h
  have hx : x ∈ r₂ := List.singleton_sublist.mp h₂
  obtain ⟨u, v, huv⟩ := List.append_of_mem hx
  subst huv
  subst hL
  refine ⟨r₁.length + u.length, by simp only [List.length_append, List.length_cons]; omega, ?_, ?_⟩
  · have h1 : ((r₁ ++ u) ++ x :: v).getD ((r₁ ++ u).length) 0 = x := by
      rw [List.getD_eq_getElem?_getD, List.getElem?_append_right (le_refl _)]
      simp
    simpa [List.append_assoc, List.length_append] using h1
  · have h2 : (r₁ ++ (u ++ x :: v)).take (r₁.length + u.length) = r₁ ++ u := by
      rw [← List.append_assoc]
      exact List.take_left' (by simp)
    rw [h2]
    exact h₁.trans (List.sublist_append_left _ _)

/-- Converse construction: extending a common subsequence of `L.take q` by
the element at position `q`. -/
theorem sublist_take_concat {c : List ℤ} {L : List ℤ} {q : ℕ} (hq : q < L.length)
    (hc : c.Sublist (L.take q)) : (c ++ [L.getD q 0]).Sublist (L.take (q + 1)) := by
  have ht : L.take (q + 1) = L.take q ++ [L.getD q 0] := by
    rw [List.take_succ]
    simp [List.getElem?_eq_getElem hq, List.getD_eq_getElem?_getD]
  rw [ht]
  exact hc.append (List.Sublist.refl _)

/-- Splitting `c <+ s ++ [t]`: either `c` avoids the final `t` or ends with it. -/
theorem sublist_append_singleton_cases {c s : List ℤ} {t : ℤ}
    (h : c.Sublist (s ++ [t])) :
    c.Sublist s ∨ ∃ c', c = c' ++ [t] ∧ c'.Sublist s := by
  rw [List.sublist_append_iff] at h
  obtain ⟨l₁, l₂, rfl, h₁, h₂⟩ := h
  rcases List.sublist_singleton.mp h₂ with rfl | rfl
  · exact Or.inl (by simpa using h₁)
  · exact Or.inr ⟨l₁, rfl, h₁⟩

open Classical in
/-- The Hunt-Szymanski threshold function of the textbook invariant:
least end position (in `l`) of a length-`k` common subsequence with `s`. -/
noncomputable def thr (s l : List ℤ) (k : ℕ) : WithTop ℤ :=
  if k = 0 then ((-1 : ℤ) : WithTop ℤ)
  else if h : ∃ j : ℕ, HasCS s l k (j + 1) then (((Nat.find h : ℕ) : ℤ) : WithTop ℤ)
  else ⊤

theorem thr_zero (s l : List ℤ) : thr s l 0 = ((-1 : ℤ) : WithTop ℤ) := by
  simp [thr]

theorem thr_le_coe_iff {s l : List ℤ} {k : ℕ} (hk : k ≠ 0) (j : ℕ) :
    thr s l k ≤ (((j : ℕ) : ℤ) : WithTop ℤ) ↔ HasCS s l k (j + 1) := by
  classical
  simp only [thr, if_neg hk]
  split_ifs with h
  · constructor
    · intro hle
      have hfind : (Nat.find h) ≤ j := by exact_mod_cast hle
      exact HasCS_mono_j (Nat.find_spec h) (by omega)
    · intro hcs
      have : Nat.find h ≤ j := Nat.find_le hcs
      exact_mod_cast this
  · simp only [top_le_iff]
    constructor
    · intro hEq
      exact absurd hEq WithTop.coe_ne_top
    · intro hcs
      exact absurd ⟨j, hcs⟩ h

theorem thr_eq_top_iff {s l : List ℤ} {k : ℕ} (hk : k ≠ 0) :
    thr s l k = ⊤ ↔ ∀ j : ℕ, ¬ HasCS s l k (j + 1) := by
  classical
  simp only [thr, if_neg hk]
  split_ifs with h
  · simp only [WithTop.coe_ne_top, false_iff, not_forall, not_not]
    obtain ⟨j, hj⟩ := h
    exact ⟨j, hj⟩
  · simpa using fun j hj => h ⟨j, hj⟩

theorem thr_shape (s l : List ℤ) (k : ℕ) :
    (k = 0 ∧ thr s l k = ((-1 : ℤ) : WithTop ℤ)) ∨ thr s l k = ⊤ ∨
      ∃ j : ℕ, thr s l k = (((j : ℕ) : ℤ) : WithTop ℤ) := by
  classical
  by_cases hk : k = 0
  · exact Or.inl ⟨hk, by simp [hk, thr_zero]⟩
  · simp only [thr, if_neg hk]
    split_ifs with h
    · exact Or.inr (Or.inr ⟨Nat.find h, rfl⟩)
    · exact Or.inr (Or.inl rfl)

theorem thr_coe_hascs {s l : List ℤ} {k j : ℕ} (hk : k ≠ 0)
    (h : thr s l k = (((j : ℕ) : ℤ) : WithTop ℤ)) : HasCS s l k (j + 1) :=
  (thr_le_coe_iff hk j).mp (le_of_eq h)

theorem thr_ne_top_of_hascs {s l : List ℤ} {k j : ℕ} (hcs : HasCS s l k (j + 1)) :
    thr s l k ≠ ⊤ := by
  by_cases hk : k = 0
  · subst hk; rw [thr_zero]; exact WithTop.coe_ne_top
  · intro htop
    exact (thr_eq_top_iff hk).mp htop j hcs

theorem thr_nil {l : List ℤ} {k : ℕ} (hk : k ≠ 0) : thr [] l k = ⊤ := by
  rw [thr_eq_top_iff hk]
  intro j hcs
  obtain ⟨c, hlen, hs, _⟩ := hcs
  rw [List.sublist_nil.mp hs] at hlen
  exact hk (hlen ▸ rfl)

theorem thr_gt_slen {s l : List ℤ} {k : ℕ} (h : s.length < k) : thr s l k = ⊤ := by
  have hk : k ≠ 0 := by omega
  rw [thr_eq_top_iff hk]
  intro j hcs
  exact absurd hcs.le_slen (by omega)

theorem thr_mono {s l : List ℤ} {k k' : ℕ} (h : k ≤ k') : thr s l k ≤ thr s l k' := by
  rcases thr_shape s l k' with ⟨hk0, _⟩ | htop | ⟨j, hj⟩
  · have : k = 0 := by omega
    subst this; subst hk0
    exact le_refl _
  · rw [htop]; exact le_top
  · rw [hj]
    by_cases hk : k = 0
    · subst hk
      rw [thr_zero]
      exact_mod_cast (by omega : (-1 : ℤ) ≤ (j : ℤ))
    · have hk' : k' ≠ 0 := by intro h0; subst h0; omega
      exact (thr_le_coe_iff hk j).mpr (HasCS_mono_k h (thr_coe_hascs hk' hj))

theorem thr_antitone_s {s s' l : List ℤ} {k : ℕ} (hss : s.Sublist s') :
    thr s' l k ≤ thr s l k := by
  rcases thr_shape s l k with ⟨hk0, hv⟩ | htop | ⟨j, hj⟩
  · subst hk0; rw [hv, thr_zero]
  · rw [htop]; exact le_top
  · have hk : k ≠ 0 := by
      intro h0; subst h0; rw [thr_zero] at hj
      exact absurd (by exact_mod_cast hj : (-1 : ℤ) = (j : ℤ)) (by omega)
    rw [hj]
    obtain ⟨c, hlen, hcs, hcl⟩ := thr_coe_hascs hk hj
    exact (thr_le_coe_iff hk j).mpr ⟨c, hlen, hcs.trans hss, hcl⟩

theorem thr_coe_lt_len {s l : List ℤ} {k j : ℕ} (hk : k ≠ 0)
    (h : thr s l k = (((j : ℕ) : ℤ) : WithTop ℤ)) : j < l.length := by
  by_contra hge
  push_neg at hge
  obtain ⟨c, hlen, hcs, hcl⟩ := thr_coe_hascs hk h
  by_cases hj0 : j = 0
  · subst hj0
    have : l = [] := List.length_eq_zero.mp (by omega)
    subst this
    simp only [List.take_nil] at hcl
    rw [List.sublist_nil.mp hcl] at hlen
    exact hk (hlen ▸ rfl)
  · have htake : l.take (j + 1) = l.take j := by
      rw [List.take_of_length_le (by omega), List.take_of_length_le (by omega)]
    have hcs' : HasCS s l k ((j - 1) + 1) := by
      refine ⟨c, hlen, hcs, ?_⟩
      rw [(by omega : j - 1 + 1 = j), ← htake]
      exact hcl
    have hle := (thr_le_coe_iff hk (j - 1)).mpr hcs'
    rw [h] at hle
    have : (j : ℤ) ≤ ((j - 1 : ℕ) : ℤ) := by exact_mod_cast hle
    omega

/-- The finite value of a successor threshold strictly dominates the previous
threshold: dropping the last element of a witness gives a strictly earlier end. -/
theorem thr_lt_succ {s l : List ℤ} {k j : ℕ}
    (h : thr s l (k + 1) = (((j : ℕ) : ℤ) : WithTop ℤ)) :
    thr s l k < (((j : ℕ) : ℤ) : WithTop ℤ) := by
  obtain ⟨c, hlen, hcs, hcl⟩ := thr_coe_hascs (Nat.succ_ne_zero k) h
  by_cases hk : k = 0
  · subst hk
    rw [thr_zero]
    exact_mod_cast (by omega : (-1 : ℤ) < (j : ℤ))
  · have hcne : c ≠ [] := by intro h0; subst h0; simp at hlen
    obtain ⟨q, hqlen, hqval, hqsub⟩ :=
      sublist_concat_split (c := c.dropLast) (x := c.getLast hcne)
        (L := l.take (j + 1)) (by rw [List.dropLast_concat_getLast hcne]; exact hcl)
    have hqj : q ≤ j := by
      have := hqlen
      rw [List.length_take] at this
      omega
    have hq0 : q ≠ 0 := by
      intro h0
      subst h0
      simp only [List.take_zero] at hqsub
      have hd := List.sublist_nil.mp hqsub
      have hlen' : c.dropLast.length = 0 := by rw [hd]; rfl
      rw [List.length_dropLast, hlen] at hlen'
      omega
    have htt : (l.take (j + 1)).take q = l.take q := by
      rw [List.take_take, min_eq_left (by omega)]
    have hcs' : HasCS s l k ((q - 1) + 1) := by
      refine ⟨c.dropLast, by rw [List.length_dropLast, hlen]; omega, ?_, ?_⟩
      · exact (List.dropLast_sublist c).trans hcs
      · rw [(by omega : q - 1 + 1 = q), ← htt]
        exact hqsub
    have hle := (thr_le_coe_iff hk (q - 1)).mpr hcs'
    calc thr s l k ≤ (((q - 1 : ℕ) : ℤ) : WithTop ℤ) := hle
      _ < (((j : ℕ) : ℤ) : WithTop ℤ) := by exact_mod_cast (by omega : ((q - 1 : ℕ) : ℤ) < (j : ℤ))

theorem token_positions_mem {l : List ℤ} {t : ℤ} {q : ℕ} :
    q ∈ token_positions l t ↔ q < l.length ∧ l.getD q 0 = t := by
  simp [token_positions, List.mem_filter, List.mem_range, beq_iff_eq]

theorem token_positions_sorted (l : List ℤ) (t : ℤ) :
    (token_positions l t).Pairwise (fun a b => b < a) := by
  rw [token_positions, List.pairwise_reverse]
  exact List.Pairwise.filter _ (List.pairwise_lt_range l.length)

open Classical in
/-- The minimum of the positions in `P` that extend a length-`(k-1)` common
subsequence (threshold `thr s l (k-1)`), as the candidate value for
threshold slot `k`; `⊤` if no position qualifies. -/
noncomputable def candMin (s l : List ℤ) (k : ℕ) (P : List ℕ) : WithTop ℤ :=
  P.foldr (fun q acc =>
    if thr s l (k - 1) < (((q : ℕ) : ℤ) : WithTop ℤ)
    then min (((q : ℕ) : ℤ) : WithTop ℤ) acc else acc) ⊤

theorem candMin_nil (s l : List ℤ) (k : ℕ) : candMin s l k [] = ⊤ := rfl

open Classical in
theorem candMin_cons (s l : List ℤ) (k : ℕ) (q : ℕ) (P : List ℕ) :
    candMin s l k (q :: P) =
      if thr s l (k - 1) < (((q : ℕ) : ℤ) : WithTop ℤ)
      then min (((q : ℕ) : ℤ) : WithTop ℤ) (candMin s l k P) else candMin s l k P := rfl

theorem candMin_append (s l : List ℤ) (k : ℕ) (P P' : List ℕ) :
    candMin s l k (P ++ P') = min (candMin s l k P) (candMin s l k P') := by
  induction P with
  | nil => simp [candMin_nil]
  | cons q P ih =>
    rw [List.cons_append, candMin_cons, candMin_cons, ih]
    split_ifs with h
    · rw [min_assoc]
    · rfl

theorem candMin_gt {s l : List ℤ} {k : ℕ} {P : List ℕ} {p : ℕ}
    (h : ∀ q ∈ P, p < q) : (((p : ℕ) : ℤ) : WithTop ℤ) < candMin s l k P := by
  induction P with
  | nil => exact WithTop.coe_lt_top _
  | cons q P ih =>
    have hq : p < q := h q (List.mem_cons_self q P)
    have hP := ih (fun r hr => h r (List.mem_cons_of_mem q hr))
    rw [candMin_cons]
    split_ifs with hc
    · exact lt_min (by exact_mod_cast (by exact_mod_cast hq : (p : ℤ) < (q : ℤ))) hP
    · exact hP

theorem candMin_mem_le {s l : List ℤ} {k : ℕ} {P : List ℕ} {q : ℕ}
    (hq : q ∈ P) (hc : thr s l (k - 1) < (((q : ℕ) : ℤ) : WithTop ℤ)) :
    candMin s l k P ≤ (((q : ℕ) : ℤ) : WithTop ℤ) := by
  induction P with
  | nil => exact absurd hq (List.not_mem_nil q)
  | cons r P ih =>
    rw [candMin_cons]
    rcases List.mem_cons.mp hq with rfl | hmem
    · rw [if_pos hc]
      exact min_le_left _ _
    · split_ifs with h
      · exact le_trans (min_le_right _ _) (ih hmem)
      · exact ih hmem

theorem candMin_shape (s l : List ℤ) (k : ℕ) (P : List ℕ) :
    candMin s l k P = ⊤ ∨
      ∃ q ∈ P, candMin s l k P = (((q : ℕ) : ℤ) : WithTop ℤ) ∧
        thr s l (k - 1) < (((q : ℕ) : ℤ) : WithTop ℤ) := by
  induction P with
  | nil => exact Or.inl rfl
  | cons r P ih =>
    rw [candMin_cons]
    split_ifs with h
    · rcases ih with htop | ⟨q, hqmem, hqeq, hqlt⟩
      · rw [htop]
        exact Or.inr ⟨r, List.mem_cons_self r P, by simp, h⟩
      · rcases le_total (((r : ℕ) : ℤ) : WithTop ℤ) (candMin s l k P) with hle | hle
        · exact Or.inr ⟨r, List.mem_cons_self r P, min_eq_left hle, h⟩
        · exact Or.inr ⟨q, List.mem_cons_of_mem r hqmem, by rw [min_eq_right hle, hqeq], hqlt⟩
    · rcases ih with htop | ⟨q, hqmem, hqeq, hqlt⟩
      · exact Or.inl htop
      · exact Or.inr ⟨q, List.mem_cons_of_mem r hqmem, hqeq, hqlt⟩

theorem candMin_mono {s l : List ℤ} {j k : ℕ} (h : j ≤ k) (P : List ℕ) :
    candMin s l j P ≤ candMin s l k P := by
  induction P with
  | nil => exact le_refl _
  | cons q P ih =>
    rw [candMin_cons, candMin_cons]
    have hth : thr s l (j - 1) ≤ thr s l (k - 1) := thr_mono (by omega)
    by_cases h2 : thr s l (k - 1) < (((q : ℕ) : ℤ) : WithTop ℤ)
    · rw [if_pos h2, if_pos (lt_of_le_of_lt hth h2)]
      exact min_le_min (le_refl _) ih
    · rw [if_neg h2]
      split_ifs with h1
      · exact le_trans (min_le_right _ _) ih
      · exact ih

/-- The Hunt-Szymanski recurrence: appending one token `t` to the processed
prefix `s` updates every threshold slot `k` to the minimum of its old value
and the least match position of `t` that extends a length-`(k-1)` common
subsequence. -/
theorem thr_append (s l : List ℤ) (t : ℤ) (k : ℕ) :
    thr (s ++ [t]) l k = min (thr s l k) (candMin s l k (token_positions l t)) := by
  by_cases hk : k = 0
  · subst hk
    rw [thr_zero, thr_zero]
    rcases candMin_shape s l 0 (token_positions l t) with htop | ⟨q, _, hqeq, _⟩
    · rw [htop, min_eq_left le_top]
    · rw [hqeq, min_eq_left]
      exact_mod_cast (by omega : (-1 : ℤ) ≤ (q : ℤ))
  · refine le_antisymm (le_min (thr_antitone_s (List.sublist_append_left s [t])) ?_) ?_
    · -- thr (s ++ [t]) l k ≤ candMin
      rcases candMin_shape s l k (token_positions l t) with htop | ⟨q, hqmem, hqeq, hqlt⟩
      · rw [htop]; exact le_top
      · rw [hqeq]
        obtain ⟨hqlen, hqval⟩ := token_positions_mem.mp hqmem
        -- build a length-k common subsequence of s ++ [t] ending at position q
        have hcs' : HasCS s l (k - 1) q := by
          by_cases hk1 : k - 1 = 0
          · rw [hk1]; exact HasCS_zero s l q
          · rcases thr_shape s l (k - 1) with ⟨h0, _⟩ | htop' | ⟨j, hj⟩
            · exact absurd h0 hk1
            · rw [htop'] at hqlt
              exact absurd hqlt not_top_lt
            · rw [hj] at hqlt
              have hjq : j + 1 ≤ q := by
                have : (j : ℤ) < (q : ℤ) := by exact_mod_cast hqlt
                omega
              exact HasCS_mono_j (thr_coe_hascs hk1 hj) hjq
        obtain ⟨c, hclen, hcss, hcsl⟩ := hcs'
        refine (thr_le_coe_iff hk q).mpr ⟨c ++ [t], ?_, ?_, ?_⟩
        · simp only [List.length_append, List.length_cons, List.length_nil, hclen]
          omega
        · exact hcss.append (List.Sublist.refl [t])
        · rw [← hqval]
          exact sublist_take_concat hqlen hcsl
    · -- min ≤ thr (s ++ [t]) l k
      rcases thr_shape (s ++ [t]) l k with ⟨h0, _⟩ | htop | ⟨j, hj⟩
      · exact absurd h0 hk
      · rw [htop]; exact le_top
      · rw [hj]
        obtain ⟨c, hclen, hcss, hcsl⟩ := thr_coe_hascs hk hj
        rcases sublist_append_singleton_cases hcss with hcs | ⟨c', rfl, hc's⟩
        · exact le_trans (min_le_left _ _) ((thr_le_coe_iff hk j).mpr ⟨c, hclen, hcs, hcsl⟩)
        · obtain ⟨q, hqlen, hqval, hqsub⟩ := sublist_concat_split hcsl
          have hqtake : q ≤ j := by
            rw [List.length_take] at hqlen
            omega
          have hqlen' : q < l.length := by
            rw [List.length_take] at hqlen
            omega
          have hqval' : l.getD q 0 = t := by
            rw [List.getD_eq_getElem?_getD] at hqval ⊢
            rw [List.getElem?_take_of_lt (by rw [List.length_take] at hqlen; omega)] at hqval
            exact hqval
          have hqpos : q ∈ token_positions l t := token_positions_mem.mpr ⟨hqlen', hqval'⟩
          have htt : (l.take (j + 1)).take q = l.take q := by
            rw [List.take_take, min_eq_left (by omega)]
          have hc'len : c'.length = k - 1 := by
            simp only [List.length_append, List.length_cons, List.length_nil] at hclen
            omega
          have hthr_lt : thr s l (k - 1) < (((q : ℕ) : ℤ) : WithTop ℤ) := by
            by_cases hk1 : k - 1 = 0
            · rw [hk1, thr_zero]
              exact_mod_cast (by omega : (-1 : ℤ) < (q : ℤ))
            · have hq0 : q ≠ 0 := by
                intro h0
                subst h0
                simp only [List.take_zero] at hqsub
                rw [List.sublist_nil.mp hqsub] at hc'len
                exact hk1 hc'len.symm
              have hcs' : HasCS s l (k - 1) ((q - 1) + 1) := by
                refine ⟨c', hc'len, hc's, ?_⟩
                rw [(by omega : q - 1 + 1 = q), ← htt]
                exact hqsub
              calc thr s l (k - 1) ≤ (((q - 1 : ℕ) : ℤ) : WithTop ℤ) :=
                    (thr_le_coe_iff hk1 (q - 1)).mpr hcs'
                _ < (((q : ℕ) : ℤ) : WithTop ℤ) := by
                    exact_mod_cast (by omega : ((q - 1 : ℕ) : ℤ) < (q : ℤ))
          calc min (thr s l k) (candMin s l k (token_positions l t))
              ≤ candMin s l k (token_positions l t) := min_le_right _ _
            _ ≤ (((q : ℕ) : ℤ) : WithTop ℤ) := candMin_mem_le hqpos hthr_lt
            _ ≤ (((j : ℕ) : ℤ) : WithTop ℤ) := by
                exact_mod_cast (by omega : ((q : ℕ) : ℤ) ≤ (j : ℤ))

theorem getD_set_self {arr : List (WithTop ℤ)} {i : ℕ} (h : i < arr.length) (v : WithTop ℤ) :
    (arr.set i v).getD i ⊤ = v := by
  rw [List.getD_eq_getElem?_getD, List.getElem?_set_self h]
  rfl

theorem getD_set_ne {arr : List (WithTop ℤ)} {i k : ℕ} (h : i ≠ k) (v : WithTop ℤ) :
    (arr.set i v).getD k ⊤ = arr.getD k ⊤ := by
  rw [List.getD_eq_getElem?_getD, List.getElem?_set_ne h, ← List.getD_eq_getElem?_getD]

/-- Correctness of the binary-search loop: on an array whose "below `pos`"
predicate is downward closed on `[0, n]`, given enough fuel, the loop
returns the greatest index of `[left, right]` whose entry is below `pos`. -/
theorem hs_bsearch_spec (arr : List (WithTop ℤ)) (p : ℤ) (n : ℕ)
    (hdc : ∀ j k : ℕ, j ≤ k → k ≤ n → arr.getD k ⊤ < (p : WithTop ℤ) →
      arr.getD j ⊤ < (p : WithTop ℤ)) :
    ∀ (fuel left right : ℕ), left ≤ right → right ≤ n → right - left ≤ fuel →
      arr.getD left ⊤ < (p : WithTop ℤ) →
      (∀ k : ℕ, k ≤ n → right < k → ¬ arr.getD k ⊤ < (p : WithTop ℤ)) →
      left ≤ hs_bsearch arr p fuel left right ∧
      hs_bsearch arr p fuel left right ≤ right ∧
      arr.getD (hs_bsearch arr p fuel left right) ⊤ < (p : WithTop ℤ) ∧
      (∀ k : ℕ, k ≤ n → arr.getD k ⊤ < (p : WithTop ℤ) →
        k ≤ hs_bsearch arr p fuel left right) := by
  intro fuel
  induction fuel with
  | zero =>
    intro left right hlr hrn hfuel hlt hinv
    have hEq : left = right := by omega
    simp only [hs_bsearch]
    refine ⟨le_refl _, hlr, hlt, ?_⟩
    intro k hk hklt
    by_contra hgt
    exact hinv k hk (by omega) hklt
  | succ fuel ih =>
    intro left right hlr hrn hfuel hlt hinv
    simp only [hs_bsearch]
    by_cases hcmp : left < right
    · rw [if_pos hcmp]
      have hmid1 : left + 1 ≤ (left + right + 1) / 2 := by omega
      have hmid2 : (left + right + 1) / 2 ≤ right := by omega
      by_cases hm : arr.getD ((left + right + 1) / 2) ⊤ < (p : WithTop ℤ)
      · rw [if_pos hm]
        obtain ⟨c1, c2, c3, c4⟩ := ih ((left + right + 1) / 2) right hmid2 hrn (by omega) hm hinv
        exact ⟨by omega, c2, c3, c4⟩
      · rw [if_neg hm]
        have hinv' : ∀ k : ℕ, k ≤ n → (left + right + 1) / 2 - 1 < k →
            ¬ arr.getD k ⊤ < (p : WithTop ℤ) := by
          intro k hk hgt hklt
          by_cases hkr : k ≤ right
          · exact hm (hdc _ k (by omega) hk hklt)
          · exact hinv k hk (by omega) hklt
        obtain ⟨c1, c2, c3, c4⟩ :=
          ih left ((left + right + 1) / 2 - 1) (by omega) (by omega) (by omega) hlt hinv'
        exact ⟨c1, by omega, c3, c4⟩
    · rw [if_neg hcmp]
      have hEq : left = right := by omega
      refine ⟨le_refl _, hlr, hlt, ?_⟩
      intro k hk hklt
      by_contra hgt
      exact hinv k hk (by omega) hklt

/-- The mid-token invariant: after processing the descending position list
`P` of the current token, slot `k` of the array holds the minimum of the
old threshold `thr s l k` and the best candidate among `P`. -/
def MidArr (s l : List ℤ) (n : ℕ) (P : List ℕ) (arr : List (WithTop ℤ)) : Prop :=
  arr.length = n + 1 ∧
    ∀ k : ℕ, k ≤ n → arr.getD k ⊤ = min (thr s l k) (candMin s l k P)

/-- The between-tokens invariant: the array holds exactly the thresholds of
the processed prefix `s` of the shorter sequence. -/
def ThrArr (s l : List ℤ) (n : ℕ) (arr : List (WithTop ℤ)) : Prop :=
  arr.length = n + 1 ∧ ∀ k : ℕ, k ≤ n → arr.getD k ⊤ = thr s l k

open Classical in
theorem candMin_singleton (s l : List ℤ) (k p : ℕ) :
    candMin s l k [p] =
      if thr s l (k - 1) < (((p : ℕ) : ℤ) : WithTop ℤ)
      then (((p : ℕ) : ℤ) : WithTop ℤ) else ⊤ := by
  rw [candMin_cons, candMin_nil]
  split_ifs with h
  · exact min_eq_left le_top
  · rfl

/-- One binary-search-and-update step preserves the mid-token invariant,
extending the processed position list by `p` (all previously processed
positions being larger than `p`). -/
theorem hs_update_mid (s l : List ℤ) (n : ℕ) (hsn : s.length + 1 ≤ n)
    (P : List ℕ) (p : ℕ) (hdesc : ∀ q ∈ P, p < q)
    (arr : List (WithTop ℤ)) (hmid : MidArr s l n P arr) :
    MidArr s l n (P ++ [p]) (hs_update n arr p) := by
  classical
  obtain ⟨hlen, hval⟩ := hmid
  have hmono : ∀ j k : ℕ, j ≤ k → k ≤ n → arr.getD j ⊤ ≤ arr.getD k ⊤ := by
    intro j k hjk hkn
    rw [hval j (le_trans hjk hkn), hval k hkn]
    exact min_le_min (thr_mono hjk) (candMin_mono hjk P)
  have hdc : ∀ j k : ℕ, j ≤ k → k ≤ n → arr.getD k ⊤ < (((p : ℕ) : ℤ) : WithTop ℤ) →
      arr.getD j ⊤ < (((p : ℕ) : ℤ) : WithTop ℤ) :=
    fun j k hjk hkn hlt => lt_of_le_of_lt (hmono j k hjk hkn) hlt
  have h0lt : arr.getD 0 ⊤ < (((p : ℕ) : ℤ) : WithTop ℤ) := by
    rw [hval 0 (Nat.zero_le n)]
    calc min (thr s l 0) (candMin s l 0 P) ≤ thr s l 0 := min_le_left _ _
      _ = ((-1 : ℤ) : WithTop ℤ) := thr_zero s l
      _ < (((p : ℕ) : ℤ) : WithTop ℤ) := by exact_mod_cast (by omega : (-1 : ℤ) < (p : ℤ))
  obtain ⟨hl1, hl2, hl3, hl4⟩ :=
    hs_bsearch_spec arr ((p : ℕ) : ℤ) n hdc n 0 n (Nat.zero_le n) (le_refl n) (by omega) h0lt
      (fun k hk hgt => absurd hk (by omega))
  set left := hs_bsearch arr ((p : ℕ) : ℤ) n 0 n with hleft
  have hcand_gt : ∀ k : ℕ, (((p : ℕ) : ℤ) : WithTop ℤ) < candMin s l k P :=
    fun k => candMin_gt hdesc
  have hBn : ¬ arr.getD n ⊤ < (((p : ℕ) : ℤ) : WithTop ℤ) := by
    rw [hval n (le_refl n), thr_gt_slen (by omega : s.length < n), min_eq_right le_top]
    exact not_lt.mpr (le_of_lt (hcand_gt n))
  have hlfn : left < n := by
    rcases lt_or_eq_of_le hl2 with h | h
    · exact h
    · exact absurd (h ▸ hl3) hBn
  have hthr_left : thr s l left < (((p : ℕ) : ℤ) : WithTop ℤ) := by
    have := hl3
    rw [hval left (by omega)] at this
    rcases min_lt_iff.mp this with h | h
    · exact h
    · exact absurd h (not_lt.mpr (le_of_lt (hcand_gt left)))
  have hF1 : ∀ k : ℕ, k ≤ left → arr.getD k ⊤ < (((p : ℕ) : ℤ) : WithTop ℤ) :=
    fun k hk => lt_of_le_of_lt (hmono k left hk (by omega)) hl3
  have hF4 : ∀ k : ℕ, left + 1 < k → k ≤ n → ¬ thr s l (k - 1) < (((p : ℕ) : ℤ) : WithTop ℤ) := by
    intro k hgt hkn hlt
    have hB : arr.getD (k - 1) ⊤ < (((p : ℕ) : ℤ) : WithTop ℤ) := by
      rw [hval (k - 1) (by omega)]
      exact lt_of_le_of_lt (min_le_left _ _) hlt
    have := hl4 (k - 1) (by omega) hB
    omega
  -- target reformulation
  have hT : ∀ k : ℕ, k ≤ n →
      min (thr s l k) (candMin s l k (P ++ [p])) =
        min (arr.getD k ⊤)
          (if thr s l (k - 1) < (((p : ℕ) : ℤ) : WithTop ℤ)
           then (((p : ℕ) : ℤ) : WithTop ℤ) else ⊤) := by
    intro k hk
    rw [candMin_append, candMin_singleton, ← min_assoc, hval k hk]
  rw [hs_update]
  simp only [← hleft]
  constructor
  · split_ifs <;> simp [hlen]
  · intro k hk
    rw [hT k hk]
    by_cases hcond : (((p : ℕ) : ℤ) : WithTop ℤ) < arr.getD (left + 1) ⊤
    · rw [if_pos ⟨hl3, hcond⟩]
      rcases Nat.lt_trichotomy k (left + 1) with hklt | hkeq | hkgt
      · rw [getD_set_ne (by omega)]
        have hBk := hF1 k (by omega)
        split_ifs with hc
        · exact (min_eq_left (le_of_lt hBk)).symm
        · exact (min_eq_left le_top).symm
      · subst hkeq
        rw [getD_set_self (by omega : left + 1 < arr.length)]
        rw [if_pos (by simpa using hthr_left)]
        exact (min_eq_right (le_of_lt hcond)).symm
      · rw [getD_set_ne (by omega)]
        rw [if_neg (hF4 k (by omega) hk)]
        exact (min_eq_left le_top).symm
    · rw [if_neg (fun hand => hcond hand.2)]
      rcases Nat.lt_trichotomy k (left + 1) with hklt | hkeq | hkgt
      · have hBk := hF1 k (by omega)
        split_ifs with hc
        · exact (min_eq_left (le_of_lt hBk)).symm
        · exact (min_eq_left le_top).symm
      · subst hkeq
        split_ifs with hc
        · exact (min_eq_left (not_lt.mp hcond)).symm
        · exact (min_eq_left le_top).symm
      · rw [if_neg (hF4 k (by omega) hk)]
        exact (min_eq_left le_top).symm

theorem hs_fold_mid (s l : List ℤ) (n : ℕ) (hsn : s.length + 1 ≤ n) :
    ∀ (P₂ P₁ : List ℕ), (∀ q ∈ P₁, ∀ r ∈ P₂, r < q) →
      P₂.Pairwise (fun a b => b < a) →
      ∀ arr, MidArr s l n P₁ arr →
      MidArr s l n (P₁ ++ P₂) (P₂.foldl (hs_update n) arr) := by
  intro P₂
  induction P₂ with
  | nil => intro P₁ _ _ arr h; simpa using h
  | cons p P₂ ih =>
    intro P₁ hcross hpw arr hmid
    have h1 : ∀ q ∈ P₁, p < q := fun q hq => hcross q hq p (List.mem_cons_self p P₂)
    have hstep := hs_update_mid s l n hsn P₁ p h1 arr hmid
    have hcross' : ∀ q ∈ P₁ ++ [p], ∀ r ∈ P₂, r < q := by
      intro q hq r hr
      rcases List.mem_append.mp hq with hq1 | hq2
      · exact hcross q hq1 r (List.mem_cons_of_mem p hr)
      · rw [List.mem_singleton.mp hq2]
        exact (List.pairwise_cons.mp hpw).1 r hr
    have hres := ih (P₁ ++ [p]) hcross' (List.pairwise_cons.mp hpw).2 _ hstep
    simpa [List.append_assoc] using hres

theorem hs_token_step (s l : List ℤ) (t : ℤ) (n : ℕ) (hsn : s.length + 1 ≤ n)
    (arr : List (WithTop ℤ)) (h : ThrArr s l n arr) :
    ThrArr (s ++ [t]) l n ((token_positions l t).foldl (hs_update n) arr) := by
  have hmid0 : MidArr s l n [] arr :=
    ⟨h.1, fun k hk => by rw [h.2 k hk, candMin_nil, min_eq_left le_top]⟩
  have hres := hs_fold_mid s l n hsn (token_positions l t) [] (by simp)
    (token_positions_sorted l t) arr hmid0
  simp only [List.nil_append] at hres
  exact ⟨hres.1, fun k hk => by rw [hres.2 k hk, ← thr_append]⟩

/-- After running the main loop over the remaining tokens `rest`, the array
holds the thresholds of the concatenated prefix; in particular every update
index used along the way was in range (the Python code never overruns its
list). -/
theorem hs_fold_run (l : List ℤ) (n : ℕ) :
    ∀ (rest s : List ℤ) (arr : List (WithTop ℤ)),
      s.length + rest.length = n → ThrArr s l n arr →
      ThrArr (s ++ rest) l n (hs_run l n rest arr) := by
  intro rest
  induction rest with
  | nil =>
    intro s arr _ h
    simpa [hs_run] using h
  | cons t rest ih =>
    intro s arr hlen h
    have hsn : s.length + 1 ≤ n := by
      simp only [List.length_cons] at hlen
      omega
    have hstep := hs_token_step s l t n hsn arr h
    have hres := ih (s ++ [t]) _
      (by simp only [List.length_append, List.length_cons, List.length_nil] at hlen ⊢; omega) hstep
    simpa [hs_run, List.append_assoc] using hres

theorem hs_init_thr (l : List ℤ) (n : ℕ) :
    ThrArr [] l n (((-1 : ℤ) : WithTop ℤ) :: List.replicate n ⊤) := by
  constructor
  · simp
  · intro k hk
    cases k with
    | zero => exact (thr_zero [] l).symm
    | succ k =>
      have hget : (((-1 : ℤ) : WithTop ℤ) :: List.replicate n ⊤).getD (k + 1) ⊤ = ⊤ := by
        rw [List.getD_eq_getElem?_getD]
        rcases Nat.lt_or_ge k n with h | h
        · simp [List.getElem?_replicate, h]
        · simp [List.getElem?_replicate, Nat.not_lt.mpr h]
      rw [hget, thr_nil (Nat.succ_ne_zero k)]

theorem hs_last_finite_spec (arr : List (WithTop ℤ)) (K : ℕ) :
    ∀ n : ℕ, K ≤ n → (∀ k : ℕ, K < k → k ≤ n → arr.getD k ⊤ = ⊤) →
      (K = 0 ∨ arr.getD K ⊤ ≠ ⊤) → hs_last_finite arr n = K := by
  intro n
  induction n with
  | zero =>
    intro hK _ _
    simp only [hs_last_finite]
    omega
  | succ n ih =>
    intro hK htop hKne
    rw [hs_last_finite]
    by_cases hKn : K = n + 1
    · subst hKn
      rcases hKne with h | h
      · exact absurd h (Nat.succ_ne_zero n)
      · rw [if_pos h]
    · have hKlt : K ≤ n := by omega
      have htopn : arr.getD (n + 1) ⊤ = ⊤ := htop (n + 1) (by omega) (le_refl _)
      rw [if_neg (by simpa using htopn)]
      exact ih hKlt (fun k h1 h2 => htop k h1 (by omega)) hKne

theorem hs_main (shorter longer : List ℤ) (h2 : longer ≠ []) :
    hs_last_finite
        (hs_run longer shorter.length shorter
          (((-1 : ℤ) : WithTop ℤ) :: List.replicate shorter.length ⊤))
        shorter.length = lcsLen shorter longer := by
  have hfin := hs_fold_run longer shorter.length shorter [] _ (by simp)
    (hs_init_thr longer shorter.length)
  simp only [List.nil_append] at hfin
  obtain ⟨c, hca, hcb, hclen⟩ := lcsLen_exists shorter longer
  have hKn : lcsLen shorter longer ≤ shorter.length := hclen ▸ hca.length_le
  apply hs_last_finite_spec
  · exact hKn
  · intro k hKk hkn
    rw [hfin.2 k hkn, thr_eq_top_iff (by omega)]
    intro j hcs
    obtain ⟨c', hlen', hs', hl'⟩ := hcs
    have := lcsLen_le shorter longer c' hs' (hl'.trans (List.take_sublist _ _))
    omega
  · by_cases hK0 : lcsLen shorter longer = 0
    · exact Or.inl hK0
    · right
      rw [hfin.2 _ hKn]
      have hlpos : 1 ≤ longer.length := by
        rcases Nat.eq_zero_or_pos longer.length with h | h
        · exact absurd (List.length_eq_zero.mp h) h2
        · exact h
      apply thr_ne_top_of_hascs (j := longer.length - 1)
      refine ⟨c, hclen, hca, ?_⟩
      rw [(by omega : longer.length - 1 + 1 = longer.length), List.take_length]
      exact hcb

theorem lcsLen_nil_right (a : List ℤ) : lcsLen a [] = 0 := by
  cases a <;> simp [lcsLen]

/-- The Hunt-Szymanski implementation computes exactly the textbook LCS length. -/
theorem hunt_szymanski_lcs_eq (a b : List ℤ) : hunt_szymanski_lcs a b = lcsLen a b := by
  by_cases hab : a.length < b.length
  · simp only [hunt_szymanski_lcs, if_pos hab]
    by_cases hg : a.length = 0 ∨ b.length = 0
    · rw [if_pos hg]
      rcases hg with h | h
      · rw [List.length_eq_zero.mp h]
        simp [lcsLen]
      · exact absurd hab (by omega)
    · rw [if_neg hg]
      push_neg at hg
      exact hs_main a b (fun h => hg.2 (by rw [h]; rfl))
  · simp only [hunt_szymanski_lcs, if_neg hab]
    by_cases hg : b.length = 0 ∨ a.length = 0
    · rw [if_pos hg]
      rcases hg with h | h
      · rw [List.length_eq_zero.mp h, lcsLen_nil_right]
      · rw [List.length_eq_zero.mp h]
        simp [lcsLen]
    · rw [if_neg hg]
      push_neg at hg
      rw [hs_main b a (fun h => hg.2 (by rw [h]; rfl))]
      exact lcsLen_comm b a

/-! ### The method tracker (`src/analysis/method_tracker.py`)

Snapshots are Python dicts keyed by `full_id` whose values carry that same
`full_id`; they are embedded as lists of records in insertion order, with
`(·.map full_id).Nodup` as the dict-key-uniqueness hypothesis where a
theorem needs it.  Thresholds are Python ints (ℤ); the stored match
similarity (`lcs_sim / 100.0`) is embedded in ℚ — the only similarity
values any claim inspects are `1.0` and `ls/100`, which are exact. -/

structure MethodInfo where
  file_path : String
  start_line : ℤ
  end_line : ℤ
  method_name : String
  return_type : String
  parameters : String
  commit_hash : String
  token_hash : String
  token_sequence : Option (List ℤ)
deriving DecidableEq

/-- `MethodInfo.signature`: `f"{self.method_name}:{self.parameters}:{self.return_type}"`. -/
def MethodInfo.signature (m : MethodInfo) : String :=
  m.method_name ++ ":" ++ m.parameters ++ ":" ++ m.return_type

/-- `MethodInfo.full_id`: `f"{self.file_path}::{self.signature}"`. -/
def MethodInfo.full_id (m : MethodInfo) : String :=
  m.file_path ++ "::" ++ m.signature

structure MethodMatch where
  method_t : MethodInfo
  method_t1 : MethodInfo
  match_type : String
  similarity : ℚ
deriving DecidableEq

/-- `SimilarityCalculator.__init__`: stores `gram_size` unchanged — there is
no validation of any kind in the constructor. -/
structure SimilarityCalculator where
  gram_size : ℤ

def SimilarityCalculator.init (gram_size : ℤ) : SimilarityCalculator :=
  { gram_size := gram_size }

/-- The three `MethodTracker.__init__` parameters the matching core reads
(`use_similarity`, `ngram_threshold`, `lcs_threshold`); thresholds are
Python `int`s compared directly against the percentage scores. -/
structure TrackerConfig where
  use_similarity : Bool
  ngram_threshold : ℤ
  lcs_threshold : ℤ

/-- The `MethodTracker.__init__` defaults: `ngram_threshold: int = 10`,
`lcs_threshold: int = 70`, `use_similarity: bool = False`. -/
def default_tracker_config : TrackerConfig :=
  { use_similarity := false, ngram_threshold := 10, lcs_threshold := 70 }

/-- `MethodTracker.__init__` constructs `SimilarityCalculator(gram_size=5)`:
the tracker's gram size is hard-coded to 5. -/
def tracker_gram_size : ℤ := (SimilarityCalculator.init 5).gram_size

/-- `MethodTracker.find_exact_matches`: pair every `full_id` present in both
snapshot dicts, type `"exact"`, similarity `1.0`. -/
def find_exact_matches (snapshot_t snapshot_t1 : List MethodInfo) : List MethodMatch :=
  snapshot_t.filterMap (fun m =>
    match snapshot_t1.find? (fun m1 => m1.full_id == m.full_id) with
    | some m1 => some ⟨m, m1, "exact", 1⟩
    | none => none)

/-- First-occurrence key order of a Python dict built by successive
`d.setdefault`-style insertions. -/
def first_keys (l : List String) : List String :=
  l.foldl (fun acc h => if h ∈ acc then acc else acc ++ [h]) []

/-- `MethodTracker.find_token_hash_matches`: group both sides by truthy
(non-empty) `token_hash`, and pair the two groups of each hash
first-come-first-served (`zip`); leftover methods stay unmatched. -/
def find_token_hash_matches (unmatched_t unmatched_t1 : List MethodInfo) : List MethodMatch :=
  (first_keys ((unmatched_t.map (fun m => m.token_hash)).filter (fun h => h != ""))).flatMap
    (fun h =>
      ((unmatched_t.filter (fun m => m.token_hash == h)).zip
          (unmatched_t1.filter (fun m => m.token_hash == h))).map
        (fun p => ⟨p.1, p.2, "token_hash", 1⟩))

/-- A record's token sequence as a plain list (`None` ↦ `[]`); the Python
truthiness test `if method.token_sequence and len(...) > 0` is exactly
`token_seq m ≠ []`. -/
def token_seq (m : MethodInfo) : List ℤ :=
  m.token_sequence.getD []

/-- The match-type classification of `find_similarity_matches`. -/
def sim_classify (method_t method_t1 : MethodInfo) (lcs_sim : ℕ) : String :=
  if method_t.file_path = method_t1.file_path then
    if method_t.method_name = method_t1.method_name then "signature_changed"
    else if 90 ≤ lcs_sim then "renamed"
    else "refactored"
  else if 90 ≤ lcs_sim then "moved"
  else "refactored"

/-- The body of the inner candidate loop of `find_similarity_matches`:
skip already-claimed candidates, reject below the N-gram threshold, then
keep the candidate if its LCS score meets `lcs_threshold` and strictly
beats the best so far (initially 0). -/
def sim_scan_step (cfg : TrackerConfig) (hsh : List ℤ → ℤ) (method_t : MethodInfo)
    (matched_t1 : List String) (best : Option (MethodInfo × ℕ)) (m1 : MethodInfo) :
    Option (MethodInfo × ℕ) :=
  if m1.full_id ∈ matched_t1 then best
  else if (calc_ngram_similarity hsh tracker_gram_size (token_seq method_t) (token_seq m1) : ℤ) <
      cfg.ngram_threshold then best
  else
    let lcs_sim := calc_lcs_similarity (token_seq method_t) (token_seq m1)
    let best_val : ℕ := match best with | none => 0 | some q => q.2
    if cfg.lcs_threshold ≤ (lcs_sim : ℤ) ∧ best_val < lcs_sim then some (m1, lcs_sim)
    else best

def sim_best_match (cfg : TrackerConfig) (hsh : List ℤ → ℤ) (method_t : MethodInfo)
    (matched_t1 : List String) (methods_t1 : List MethodInfo) : Option (MethodInfo × ℕ) :=
  methods_t1.foldl (sim_scan_step cfg hsh method_t matched_t1) none

/-- The body of the outer loop of `find_similarity_matches`: the state is
`(matches, matched_t, matched_t1)`; a found best candidate is committed and
both sides are marked claimed. -/
def sim_commit_step (cfg : TrackerConfig) (hsh : List ℤ → ℤ) (methods_t1 : List MethodInfo)
    (st : List MethodMatch × List String × List String) (method_t : MethodInfo) :
    List MethodMatch × List String × List String :=
  if method_t.full_id ∈ st.2.1 then st
  else
    match sim_best_match cfg hsh method_t st.2.2 methods_t1 with
    | none => st
    | some q =>
      (st.1 ++ [⟨method_t, q.1, sim_classify method_t q.1 q.2, (q.2 : ℚ) / 100⟩],
        st.2.1 ++ [method_t.full_id], st.2.2 ++ [q.1.full_id])

/-- `MethodTracker.find_similarity_matches`. -/
def find_similarity_matches (cfg : TrackerConfig) (hsh : List ℤ → ℤ)
    (unmatched_t unmatched_t1 : List MethodInfo) : List MethodMatch :=
  if ¬ cfg.use_similarity then []
  else
    let methods_t := unmatched_t.filter (fun m => !(token_seq m == []))
    let methods_t1 := unmatched_t1.filter (fun m => !(token_seq m == []))
    (methods_t.foldl (sim_commit_step cfg hsh methods_t1) ([], [], [])).1

/-- `MethodTracker.analyze_changes`: the three stages in order, each on the
records not yet claimed, followed by residual added/deleted accounting. -/
def analyze_changes (cfg : TrackerConfig) (hsh : List ℤ → ℤ)
    (snapshot_t snapshot_t1 : List MethodInfo) :
    List MethodMatch × List String × List String :=
  let exact_matches := find_exact_matches snapshot_t snapshot_t1
  let matched_t := exact_matches.map (fun mm => mm.method_t.full_id)
  let matched_t1 := exact_matches.map (fun mm => mm.method_t1.full_id)
  let unmatched_t := snapshot_t.filter (fun m => !(matched_t.contains m.full_id))
  let unmatched_t1 := snapshot_t1.filter (fun m => !(matched_t1.contains m.full_id))
  let token_matches :=
    if unmatched_t ≠ [] ∧ unmatched_t1 ≠ [] then
      find_token_hash_matches unmatched_t unmatched_t1
    else []
  let matched_t2 := matched_t ++ token_matches.map (fun mm => mm.method_t.full_id)
  let matched_t12 := matched_t1 ++ token_matches.map (fun mm => mm.method_t1.full_id)
  let unmatched_t2 := snapshot_t.filter (fun m => !(matched_t2.contains m.full_id))
  let unmatched_t12 := snapshot_t1.filter (fun m => !(matched_t12.contains m.full_id))
  let sim_matches :=
    if cfg.use_similarity ∧ unmatched_t2 ≠ [] ∧ unmatched_t12 ≠ [] then
      find_similarity_matches cfg hsh unmatched_t2 unmatched_t12
    else []
  let all_matches := exact_matches ++ token_matches ++ sim_matches
  let matched_t3 := matched_t2 ++ sim_matches.map (fun mm => mm.method_t.full_id)
  let matched_t13 := matched_t12 ++ sim_matches.map (fun mm => mm.method_t1.full_id)
  let added_ids := (snapshot_t1.map (fun m => m.full_id)).filter
    (fun k => !(matched_t13.contains k))
  let deleted_ids := (snapshot_t.map (fun m => m.full_id)).filter
    (fun k => !(matched_t3.contains k))
  (all_matches, added_ids, deleted_ids)

/-! ### Stage lemmas for the matcher -/

theorem contains_true_iff {l : List String} {x : String} : l.contains x = true ↔ x ∈ l := by
  rw [List.contains_iff_exists_mem_beq]
  constructor
  · rintro ⟨y, hy, hbeq⟩
    rw [beq_iff_eq] at hbeq
    rwa [hbeq]
  · intro hx
    exact ⟨x, hx, beq_self_eq_true x⟩

theorem not_contains_iff {l : List String} {x : String} : (!(l.contains x)) = true ↔ x ∉ l := by
  rw [Bool.not_eq_true', Bool.eq_false_iff]
  exact not_congr contains_true_iff

theorem foldl_inv {α β : Type} (f : β → α → β) (P : β → Prop) :
    ∀ (l : List α) (init : β), P init → (∀ b a, a ∈ l → P b → P (f b a)) →
      P (l.foldl f init) := by
  intro l
  induction l with
  | nil => intro init h _; exact h
  | cons a l ih =>
    intro init h hstep
    exact ih (f init a) (hstep init a (List.mem_cons_self a l) h)
      (fun b x hx => hstep b x (List.mem_cons_of_mem a hx))

theorem zip_fst_sublist {α β : Type} :
    ∀ (A : List α) (B : List β), ((A.zip B).map Prod.fst).Sublist A := by
  intro A
  induction A with
  | nil => intro B; simp
  | cons a A ih =>
    intro B
    cases B with
    | nil => simp
    | cons b B =>
      simp only [List.zip_cons_cons, List.map_cons]
      exact List.cons_sublist_cons.mpr (ih B)

theorem zip_snd_sublist {α β : Type} :
    ∀ (A : List α) (B : List β), ((A.zip B).map Prod.snd).Sublist B := by
  intro A
  induction A with
  | nil => intro B; simp
  | cons a A ih =>
    intro B
    cases B with
    | nil => simp
    | cons b B =>
      simp only [List.zip_cons_cons, List.map_cons]
      exact List.cons_sublist_cons.mpr (ih B)

theorem first_keys_go (l : List String) :
    ∀ acc : List String, acc.Nodup →
      (l.foldl (fun acc h => if h ∈ acc then acc else acc ++ [h]) acc).Nodup ∧
      (∀ x, x ∈ l.foldl (fun acc h => if h ∈ acc then acc else acc ++ [h]) acc ↔
        x ∈ acc ∨ x ∈ l) := by
  induction l with
  | nil => intro acc hacc; simpa using hacc
  | cons h l ih =>
    intro acc hacc
    simp only [List.foldl_cons]
    by_cases hmem : h ∈ acc
    · rw [if_pos hmem]
      obtain ⟨hnd, hm⟩ := ih acc hacc
      refine ⟨hnd, fun x => ?_⟩
      rw [hm x, List.mem_cons]
      constructor
      · rintro (hx | hx)
        · exact Or.inl hx
        · exact Or.inr (Or.inr hx)
      · rintro (hx | rfl | hx)
        · exact Or.inl hx
        · exact Or.inl hmem
        · exact Or.inr hx
    · rw [if_neg hmem]
      have hacc' : (acc ++ [h]).Nodup := by
        rw [List.nodup_append]
        exact ⟨hacc, List.nodup_singleton h,
          fun x hx hhx => hmem ((List.mem_singleton.mp hhx) ▸ hx)⟩
      obtain ⟨hnd, hm⟩ := ih (acc ++ [h]) hacc'
      refine ⟨hnd, fun x => ?_⟩
      rw [hm x, List.mem_append, List.mem_singleton, List.mem_cons]
      constructor
      · rintro ((hx | rfl) | hx)
        · exact Or.inl hx
        · exact Or.inr (Or.inl rfl)
        · exact Or.inr (Or.inr hx)
      · rintro (hx | rfl | hx)
        · exact Or.inl (Or.inl hx)
        · exact Or.inl (Or.inr rfl)
        · exact Or.inr hx

theorem first_keys_nodup (l : List String) : (first_keys l).Nodup :=
  (first_keys_go l [] List.nodup_nil).1

theorem mem_first_keys {l : List String} {x : String} : x ∈ first_keys l ↔ x ∈ l := by
  have h := (first_keys_go l [] List.nodup_nil).2 x
  rw [first_keys, h]
  simp

theorem find?_eq_some_of_nodup :
    ∀ {l : List MethodInfo} {m : MethodInfo} {v : String},
      (l.map MethodInfo.full_id).Nodup → m ∈ l → m.full_id = v →
      l.find? (fun x => x.full_id == v) = some m := by
  intro l
  induction l with
  | nil => intro m v _ hm _; exact absurd hm (List.not_mem_nil m)
  | cons x l ih =>
    intro m v hn hm hv
    rw [List.map_cons, List.nodup_cons] at hn
    by_cases hx : x.full_id = v
    · rw [List.find?_cons_of_pos _ (by simpa using hx)]
      rcases List.mem_cons.mp hm with rfl | hml
      · rfl
      · exfalso
        apply hn.1
        rw [hx, ← hv]
        exact List.mem_map_of_mem MethodInfo.full_id hml
    · rw [List.find?_cons_of_neg _ (by simpa using hx)]
      rcases List.mem_cons.mp hm with rfl | hml
      · exact absurd hv hx
      · exact ih hn.2 hml hv

/-- Matched identifiers plus the filtered residue is a permutation of the
snapshot's key list: the accounting invariant of `analyze_changes`. -/
theorem matched_filter_perm {keys sub : List String} (hk : keys.Nodup) (hs : sub.Nodup)
    (hsub : ∀ x ∈ sub, x ∈ keys) :
    (sub ++ keys.filter (fun k => !(sub.contains k))).Perm keys := by
  have hfs : (keys.filter (fun k => !(sub.contains k))).Nodup :=
    (List.filter_sublist keys).nodup hk
  have hnd : (sub ++ keys.filter (fun k => !(sub.contains k))).Nodup := by
    rw [List.nodup_append]
    refine ⟨hs, hfs, fun x hx hxf => ?_⟩
    have := (List.mem_filter.mp hxf).2
    exact (not_contains_iff.mp this) hx
  rw [List.perm_ext_iff_of_nodup hnd hk]
  intro a
  rw [List.mem_append, List.mem_filter]
  constructor
  · rintro (ha | ⟨ha, _⟩)
    · exact hsub a ha
    · exact ha
  · intro ha
    by_cases hm : a ∈ sub
    · exact Or.inl hm
    · exact Or.inr ⟨ha, not_contains_iff.mpr hm⟩

theorem find_exact_mem (st st1 : List MethodInfo) :
    ∀ mm ∈ find_exact_matches st st1,
      mm.method_t ∈ st ∧ mm.method_t1 ∈ st1 ∧ mm.method_t1.full_id = mm.method_t.full_id ∧
      mm.match_type = "exact" ∧ mm.similarity = 1 := by
  intro mm hmm
  rw [find_exact_matches, List.mem_filterMap] at hmm
  obtain ⟨m, hm, hsome⟩ := hmm
  cases hfind : st1.find? (fun m1 => m1.full_id == m.full_id) with
  | none => rw [hfind] at hsome; exact absurd hsome (by simp)
  | some m1 =>
    rw [hfind] at hsome
    simp only [Option.some.injEq] at hsome
    subst hsome
    have hpred := List.find?_some hfind
    rw [beq_iff_eq] at hpred
    exact ⟨hm, List.mem_of_find?_eq_some hfind, hpred, rfl, rfl⟩

theorem find_exact_before_sublist (st st1 : List MethodInfo) :
    ((find_exact_matches st st1).map (fun mm => mm.method_t.full_id)).Sublist
      (st.map MethodInfo.full_id) := by
  induction st with
  | nil => simp [find_exact_matches]
  | cons m st ih =>
    rw [find_exact_matches, List.filterMap_cons]
    cases hfind : st1.find? (fun m1 => m1.full_id == m.full_id) with
    | none =>
      rw [List.map_cons]
      exact (ih).trans (List.sublist_cons_self _ _)
    | some m1 =>
      rw [List.map_cons, List.map_cons]
      exact List.cons_sublist_cons.mpr ih

theorem find_exact_complete {st st1 : List MethodInfo} {m m1 : MethodInfo}
    (h1 : (st1.map MethodInfo.full_id).Nodup) (hm : m ∈ st) (hm1 : m1 ∈ st1)
    (hid : m1.full_id = m.full_id) :
    (⟨m, m1, "exact", 1⟩ : MethodMatch) ∈ find_exact_matches st st1 := by
  rw [find_exact_matches, List.mem_filterMap]
  exact ⟨m, hm, by rw [find?_eq_some_of_nodup h1 hm1 hid]⟩

theorem token_pair_mem {ut ut1 : List MethodInfo} {h : String} {p : MethodInfo × MethodInfo}
    (hp : p ∈ (ut.filter (fun m => m.token_hash == h)).zip
      (ut1.filter (fun m => m.token_hash == h))) :
    p.1 ∈ ut ∧ p.1.token_hash = h ∧ p.2 ∈ ut1 ∧ p.2.token_hash = h := by
  obtain ⟨a, b⟩ := p
  obtain ⟨ha, hb⟩ := List.of_mem_zip hp
  obtain ⟨ha1, ha2⟩ := List.mem_filter.mp ha
  obtain ⟨hb1, hb2⟩ := List.mem_filter.mp hb
  exact ⟨ha1, beq_iff_eq.mp ha2, hb1, beq_iff_eq.mp hb2⟩

/-- Soundness of the content-hash stage: every produced match pairs a
record of each side, both with the key's (non-empty) hash; in particular a
record whose `token_hash` is the empty string is never paired. -/
theorem find_token_mem (ut ut1 : List MethodInfo) :
    ∀ mm ∈ find_token_hash_matches ut ut1,
      mm.method_t ∈ ut ∧ mm.method_t1 ∈ ut1 ∧
      mm.method_t.token_hash ≠ "" ∧ mm.method_t1.token_hash ≠ "" ∧
      mm.method_t.token_hash = mm.method_t1.token_hash ∧
      mm.match_type = "token_hash" ∧ mm.similarity = 1 := by
  intro mm hmm
  rw [find_token_hash_matches, List.mem_flatMap] at hmm
  obtain ⟨h, hh, hmm2⟩ := hmm
  rw [List.mem_map] at hmm2
  obtain ⟨p, hp, rfl⟩ := hmm2
  obtain ⟨ha1, ha2, hb1, hb2⟩ := token_pair_mem hp
  have hne : h ≠ "" := by
    rw [mem_first_keys, List.mem_filter] at hh
    have := hh.2
    simpa using this
  exact ⟨ha1, hb1, by rw [ha2]; exact hne, by rw [hb2]; exact hne, by rw [ha2, hb2], rfl, rfl⟩

theorem token_before_ids_mem {ut ut1 : List MethodInfo} {h : String} {x : String}
    (hx : x ∈ ((ut.filter (fun m => m.token_hash == h)).zip
      (ut1.filter (fun m => m.token_hash == h))).map (fun p => p.1.full_id)) :
    ∃ a : MethodInfo, a ∈ ut ∧ a.token_hash = h ∧ a.full_id = x := by
  rw [List.mem_map] at hx
  obtain ⟨p, hp, rfl⟩ := hx
  obtain ⟨ha1, ha2, _, _⟩ := token_pair_mem hp
  exact ⟨p.1, ha1, ha2, rfl⟩

theorem token_after_ids_mem {ut ut1 : List MethodInfo} {h : String} {x : String}
    (hx : x ∈ ((ut.filter (fun m => m.token_hash == h)).zip
      (ut1.filter (fun m => m.token_hash == h))).map (fun p => p.2.full_id)) :
    ∃ a : MethodInfo, a ∈ ut1 ∧ a.token_hash = h ∧ a.full_id = x := by
  rw [List.mem_map] at hx
  obtain ⟨p, hp, rfl⟩ := hx
  obtain ⟨_, _, hb1, hb2⟩ := token_pair_mem hp
  exact ⟨p.2, hb1, hb2, rfl⟩

theorem token_map_before_eq (ut ut1 : List MethodInfo) (h : String) :
    List.map (fun mm : MethodMatch => mm.method_t.full_id)
      (List.map (fun p : MethodInfo × MethodInfo => (⟨p.1, p.2, "token_hash", 1⟩ : MethodMatch))
        ((ut.filter (fun m => m.token_hash == h)).zip
          (ut1.filter (fun m => m.token_hash == h)))) =
      List.map (fun p : MethodInfo × MethodInfo => p.1.full_id)
        ((ut.filter (fun m => m.token_hash == h)).zip
          (ut1.filter (fun m => m.token_hash == h))) := by
  rw [List.map_map]
  exact List.map_congr_left (fun p _ => rfl)

theorem token_map_after_eq (ut ut1 : List MethodInfo) (h : String) :
    List.map (fun mm : MethodMatch => mm.method_t1.full_id)
      (List.map (fun p : MethodInfo × MethodInfo => (⟨p.1, p.2, "token_hash", 1⟩ : MethodMatch))
        ((ut.filter (fun m => m.token_hash == h)).zip
          (ut1.filter (fun m => m.token_hash == h)))) =
      List.map (fun p : MethodInfo × MethodInfo => p.2.full_id)
        ((ut.filter (fun m => m.token_hash == h)).zip
          (ut1.filter (fun m => m.token_hash == h))) := by
  rw [List.map_map]
  exact List.map_congr_left (fun p _ => rfl)

theorem find_token_nodup_before (ut ut1 : List MethodInfo)
    (hn : (ut.map MethodInfo.full_id).Nodup) :
    ((find_token_hash_matches ut ut1).map (fun mm => mm.method_t.full_id)).Nodup := by
  rw [find_token_hash_matches, List.map_flatMap]
  rw [List.nodup_flatMap]
  constructor
  · intro h _
    rw [token_map_before_eq]
    have hsub : (((ut.filter (fun m => m.token_hash == h)).zip
        (ut1.filter (fun m => m.token_hash == h))).map Prod.fst).Sublist ut :=
      (zip_fst_sublist _ _).trans (List.filter_sublist ut)
    have hnd : ((((ut.filter (fun m => m.token_hash == h)).zip
        (ut1.filter (fun m => m.token_hash == h))).map Prod.fst).map
          MethodInfo.full_id).Nodup :=
      (hsub.map MethodInfo.full_id).nodup hn
    rw [List.map_map] at hnd
    exact hnd
  · have hkeys := first_keys_nodup ((ut.map (fun m => m.token_hash)).filter (fun h => h != ""))
    refine hkeys.imp ?_
    intro h h' hne x hx hx'
    simp only [] at hx hx'
    rw [token_map_before_eq] at hx hx'
    obtain ⟨a, ha, hah, hax⟩ := token_before_ids_mem hx
    obtain ⟨a', ha', hah', hax'⟩ := token_before_ids_mem hx'
    have haa : a = a' := List.inj_on_of_nodup_map hn ha ha' (by rw [hax, hax'])
    exact hne (by rw [← hah, haa, hah'])

theorem find_token_nodup_after (ut ut1 : List MethodInfo)
    (hn1 : (ut1.map MethodInfo.full_id).Nodup) :
    ((find_token_hash_matches ut ut1).map (fun mm => mm.method_t1.full_id)).Nodup := by
  rw [find_token_hash_matches, List.map_flatMap]
  rw [List.nodup_flatMap]
  constructor
  · intro h _
    rw [token_map_after_eq]
    have hsub : (((ut.filter (fun m => m.token_hash == h)).zip
        (ut1.filter (fun m => m.token_hash == h))).map Prod.snd).Sublist ut1 :=
      (zip_snd_sublist _ _).trans (List.filter_sublist ut1)
    have hnd : ((((ut.filter (fun m => m.token_hash == h)).zip
        (ut1.filter (fun m => m.token_hash == h))).map Prod.snd).map
          MethodInfo.full_id).Nodup :=
      (hsub.map MethodInfo.full_id).nodup hn1
    rw [List.map_map] at hnd
    exact hnd
  · have hkeys := first_keys_nodup ((ut.map (fun m => m.token_hash)).filter (fun h => h != ""))
    refine hkeys.imp ?_
    intro h h' hne x hx hx'
    simp only [] at hx hx'
    rw [token_map_after_eq] at hx hx'
    obtain ⟨a, ha, hah, hax⟩ := token_after_ids_mem hx
    obtain ⟨a', ha', hah', hax'⟩ := token_after_ids_mem hx'
    have haa : a = a' := List.inj_on_of_nodup_map hn1 ha ha' (by rw [hax, hax'])
    exact hne (by rw [← hah, haa, hah'])

/-! ### Scorer bounds and algebraic facts -/

theorem lcsLen_le_min (a b : List ℤ) : lcsLen a b ≤ min a.length b.length := by
  obtain ⟨c, hca, hcb, hclen⟩ := lcsLen_exists a b
  exact le_min (hclen ▸ hca.length_le) (hclen ▸ hcb.length_le)

theorem calc_lcs_similarity_le_100 (a b : List ℤ) : calc_lcs_similarity a b ≤ 100 := by
  simp only [calc_lcs_similarity]
  split_ifs with h1 h2
  · exact Nat.zero_le _
  · have hL : hunt_szymanski_lcs a b ≤ min a.length b.length := by
      rw [hunt_szymanski_lcs_eq]
      exact lcsLen_le_min a b
    calc hunt_szymanski_lcs a b * 100 / min a.length b.length
        ≤ min a.length b.length * 100 / min a.length b.length :=
          Nat.div_le_div_right (Nat.mul_le_mul_right 100 hL)
      _ = 100 := Nat.mul_div_cancel_left 100 h2
  · exact Nat.zero_le _

theorem calc_ngram_similarity_le_100 (hsh : List ℤ → ℤ) (g : ℤ) (a b : List ℤ) :
    calc_ngram_similarity hsh g a b ≤ 100 := by
  simp only [calc_ngram_similarity]
  split_ifs with h1 h2 h3
  · exact Nat.zero_le _
  · exact Nat.zero_le _
  · have hI : (create_ngrams hsh g a ∩ create_ngrams hsh g b).card ≤
        min (create_ngrams hsh g a).card (create_ngrams hsh g b).card :=
      le_min (Finset.card_le_card Finset.inter_subset_left)
        (Finset.card_le_card Finset.inter_subset_right)
    calc (create_ngrams hsh g a ∩ create_ngrams hsh g b).card * 100 /
          min (create_ngrams hsh g a).card (create_ngrams hsh g b).card
        ≤ min (create_ngrams hsh g a).card (create_ngrams hsh g b).card * 100 /
          min (create_ngrams hsh g a).card (create_ngrams hsh g b).card :=
          Nat.div_le_div_right (Nat.mul_le_mul_right 100 hI)
      _ = 100 := Nat.mul_div_cancel_left 100 h3
  · exact Nat.zero_le _

theorem create_ngrams_ne_empty {hsh : List ℤ → ℤ} {g : ℤ} {a : List ℤ}
    (hg : ¬ ((a.length : ℤ) < g)) : create_ngrams hsh g a ≠ ∅ := by
  rw [create_ngrams, if_neg hg]
  intro hempty
  have hpos : 0 < ((a.length : ℤ) - g + 1).toNat := by
    rcases Nat.eq_zero_or_pos (((a.length : ℤ) - g + 1).toNat) with h0 | h0
    · rw [Int.toNat_eq_zero] at h0
      omega
    · exact h0
  have hmem : hsh (pySlice a ((0 : ℕ) : ℤ) (((0 : ℕ) : ℤ) + g)) ∈
      ((List.range ((a.length : ℤ) - g + 1).toNat).map
        (fun i : ℕ => hsh (pySlice a (i : ℤ) ((i : ℤ) + g)))).toFinset := by
    rw [List.mem_toFinset]
    exact List.mem_map.mpr ⟨0, List.mem_range.mpr hpos, rfl⟩
  rw [hempty] at hmem
  exact absurd hmem (Finset.not_mem_empty _)

theorem calc_ngram_self (hsh : List ℤ → ℤ) (g : ℤ) (a : List ℤ) (ha : a ≠ [])
    (hg : ¬ ((a.length : ℤ) < g)) : calc_ngram_similarity hsh g a a = 100 := by
  simp only [calc_ngram_similarity]
  rw [if_neg (by simp [ha])]
  have hne : create_ngrams hsh g a ≠ ∅ := create_ngrams_ne_empty hg
  rw [if_neg (by simp [hne])]
  rw [Finset.inter_self, min_self]
  have hpos : 0 < (create_ngrams hsh g a).card :=
    Finset.card_pos.mpr (Finset.nonempty_iff_ne_empty.mpr hne)
  rw [if_pos hpos]
  exact Nat.mul_div_cancel_left 100 hpos

theorem calc_lcs_self (a : List ℤ) (ha : a ≠ []) : calc_lcs_similarity a a = 100 := by
  simp only [calc_lcs_similarity]
  rw [if_neg (by simp [ha])]
  rw [hunt_szymanski_lcs_eq, lcsLen_self, min_self]
  have hpos : 0 < a.length := List.length_pos.mpr ha
  rw [if_pos hpos]
  exact Nat.mul_div_cancel_left 100 hpos

theorem calc_lcs_comm (a b : List ℤ) : calc_lcs_similarity a b = calc_lcs_similarity b a := by
  have h1 : hunt_szymanski_lcs a b = hunt_szymanski_lcs b a := by
    rw [hunt_szymanski_lcs_eq, hunt_szymanski_lcs_eq, lcsLen_comm]
  by_cases ha : a = []
  · simp [calc_lcs_similarity, ha]
  · by_cases hb : b = []
    · simp [calc_lcs_similarity, ha, hb]
    · simp only [calc_lcs_similarity]
      rw [if_neg (show ¬(a = [] ∨ b = []) by simp [ha, hb]),
        if_neg (show ¬(b = [] ∨ a = []) by simp [ha, hb]), h1,
        min_comm a.length b.length]

theorem calc_ngram_comm (hsh : List ℤ → ℤ) (g : ℤ) (a b : List ℤ) :
    calc_ngram_similarity hsh g a b = calc_ngram_similarity hsh g b a := by
  by_cases ha : a = []
  · simp [calc_ngram_similarity, ha]
  · by_cases hb : b = []
    · simp [calc_ngram_similarity, ha, hb]
    · simp only [calc_ngram_similarity]
      rw [if_neg (show ¬(a = [] ∨ b = []) by simp [ha, hb]),
        if_neg (show ¬(b = [] ∨ a = []) by simp [ha, hb])]
      by_cases hA : create_ngrams hsh g a = ∅
      · rw [if_pos (show create_ngrams hsh g a = ∅ ∨ create_ngrams hsh g b = ∅ from Or.inl hA),
          if_pos (show create_ngrams hsh g b = ∅ ∨ create_ngrams hsh g a = ∅ from Or.inr hA)]
      · by_cases hB : create_ngrams hsh g b = ∅
        · rw [if_pos (show create_ngrams hsh g a = ∅ ∨ create_ngrams hsh g b = ∅ from Or.inr hB),
            if_pos (show create_ngrams hsh g b = ∅ ∨ create_ngrams hsh g a = ∅ from Or.inl hB)]
        · rw [if_neg (show ¬(create_ngrams hsh g a = ∅ ∨ create_ngrams hsh g b = ∅) by
              simp [hA, hB]),
            if_neg (show ¬(create_ngrams hsh g b = ∅ ∨ create_ngrams hsh g a = ∅) by
              simp [hA, hB])]
          rw [Finset.inter_comm, min_comm (create_ngrams hsh g a).card]

/-! ### The similarity stage -/

theorem sim_scan_fold (cfg : TrackerConfig) (hsh : List ℤ → ℤ) (mt : MethodInfo)
    (mT1 : List String) :
    ∀ (ms1 : List MethodInfo) (acc : Option (MethodInfo × ℕ)) (res : MethodInfo × ℕ),
      ms1.foldl (sim_scan_step cfg hsh mt mT1) acc = some res →
      acc = some res ∨
      (res.1 ∈ ms1 ∧ res.1.full_id ∉ mT1 ∧ cfg.lcs_threshold ≤ (res.2 : ℤ) ∧
        res.2 = calc_lcs_similarity (token_seq mt) (token_seq res.1)) := by
  intro ms1
  induction ms1 with
  | nil => intro acc res h; exact Or.inl h
  | cons m1 ms1 ih =>
    intro acc res h
    rw [List.foldl_cons] at h
    rcases ih _ res h with hstep | hmem
    · simp only [sim_scan_step] at hstep
      split_ifs at hstep with hin hng hcond
      · exact Or.inl hstep
      · exact Or.inl hstep
      · simp only [Option.some.injEq] at hstep
        subst hstep
        exact Or.inr ⟨List.mem_cons_self _ _, hin, hcond.1, rfl⟩
      · exact Or.inl hstep
    · exact Or.inr ⟨List.mem_cons_of_mem _ hmem.1, hmem.2⟩

theorem sim_best_spec {cfg : TrackerConfig} {hsh : List ℤ → ℤ} {mt : MethodInfo}
    {mT1 : List String} {ms1 : List MethodInfo} {res : MethodInfo × ℕ}
    (h : sim_best_match cfg hsh mt mT1 ms1 = some res) :
    res.1 ∈ ms1 ∧ res.1.full_id ∉ mT1 ∧ cfg.lcs_threshold ≤ (res.2 : ℤ) ∧
      res.2 = calc_lcs_similarity (token_seq mt) (token_seq res.1) := by
  rcases sim_scan_fold cfg hsh mt mT1 ms1 none res h with h0 | hp
  · exact absurd h0 (by simp)
  · exact hp

theorem find_sim_spec (cfg : TrackerConfig) (hsh : List ℤ → ℤ) (ut ut1 : List MethodInfo) :
    (∀ mm ∈ find_similarity_matches cfg hsh ut ut1,
      mm.method_t ∈ ut ∧ mm.method_t1 ∈ ut1 ∧
      ∃ ls : ℕ, mm.similarity = (ls : ℚ) / 100 ∧ cfg.lcs_threshold ≤ (ls : ℤ) ∧ ls ≤ 100 ∧
        mm.match_type = sim_classify mm.method_t mm.method_t1 ls) ∧
    ((find_similarity_matches cfg hsh ut ut1).map (fun mm => mm.method_t.full_id)).Nodup ∧
    ((find_similarity_matches cfg hsh ut ut1).map (fun mm => mm.method_t1.full_id)).Nodup := by
  simp only [find_similarity_matches]
  by_cases huse : cfg.use_similarity = true
  · rw [if_neg (not_not_intro huse)]
    set MT := ut.filter (fun m => !(token_seq m == [])) with hMT
    set MT1 := ut1.filter (fun m => !(token_seq m == [])) with hMT1
    have hP := foldl_inv (sim_commit_step cfg hsh MT1)
      (fun st : List MethodMatch × List String × List String =>
        st.2.1 = st.1.map (fun mm => mm.method_t.full_id) ∧
        st.2.2 = st.1.map (fun mm => mm.method_t1.full_id) ∧
        st.2.1.Nodup ∧ st.2.2.Nodup ∧
        ∀ mm ∈ st.1, mm.method_t ∈ MT ∧ mm.method_t1 ∈ MT1 ∧
          ∃ ls : ℕ, mm.similarity = (ls : ℚ) / 100 ∧ cfg.lcs_threshold ≤ (ls : ℤ) ∧ ls ≤ 100 ∧
            mm.match_type = sim_classify mm.method_t mm.method_t1 ls)
      MT ([], [], [])
      ⟨rfl, rfl, List.nodup_nil, List.nodup_nil, by simp⟩
      ?step
    case step =>
      intro st a ha hPst
      obtain ⟨hs1, hs2, hnd1, hnd2, hmem⟩ := hPst
      simp only [sim_commit_step]
      split_ifs with hin
      · exact ⟨hs1, hs2, hnd1, hnd2, hmem⟩
      · cases hbest : sim_best_match cfg hsh a st.2.2 MT1 with
        | none => exact ⟨hs1, hs2, hnd1, hnd2, hmem⟩
        | some q =>
          obtain ⟨hq1, hq2, hq3, hq4⟩ := sim_best_spec hbest
          refine ⟨?_, ?_, ?_, ?_, ?_⟩
          · simp only [List.map_append, List.map_cons, List.map_nil]
            rw [hs1]
          · simp only [List.map_append, List.map_cons, List.map_nil]
            rw [hs2]
          · rw [List.nodup_append]
            exact ⟨hnd1, List.nodup_singleton _,
              fun x hx hhx => hin ((List.mem_singleton.mp hhx) ▸ hx)⟩
          · rw [List.nodup_append]
            exact ⟨hnd2, List.nodup_singleton _,
              fun x hx hhx => hq2 ((List.mem_singleton.mp hhx) ▸ hx)⟩
          · intro mm hmm
            rcases List.mem_append.mp hmm with hmm | hmm
            · exact hmem mm hmm
            · rw [List.mem_singleton.mp hmm]
              refine ⟨ha, hq1, q.2, rfl, hq3, ?_, rfl⟩
              rw [hq4]
              exact calc_lcs_similarity_le_100 _ _
    obtain ⟨hs1, hs2, hnd1, hnd2, hmem⟩ := hP
    refine ⟨?_, ?_, ?_⟩
    · intro mm hmm
      obtain ⟨hm1, hm2, hrest⟩ := hmem mm hmm
      exact ⟨(List.mem_filter.mp hm1).1, (List.mem_filter.mp hm2).1, hrest⟩
    · rw [← hs1]
      exact hnd1
    · rw [← hs2]
      exact hnd2
  · rw [if_pos huse]
    simp

/-- The master accounting lemma for `analyze_changes`: matched before-ids
plus deleted ids are a permutation of the before snapshot's key list,
matched after-ids plus added ids are a permutation of the after snapshot's
key list, both matched id lists are duplicate-free, and every exact match
is contained in the output. -/
theorem analyze_changes_spec (cfg : TrackerConfig) (hsh : List ℤ → ℤ)
    (st st1 : List MethodInfo)
    (hn : (st.map MethodInfo.full_id).Nodup) (hn1 : (st1.map MethodInfo.full_id).Nodup) :
    ((analyze_changes cfg hsh st st1).1.map (fun mm => mm.method_t.full_id) ++
        (analyze_changes cfg hsh st st1).2.2).Perm (st.map MethodInfo.full_id) ∧
    ((analyze_changes cfg hsh st st1).1.map (fun mm => mm.method_t1.full_id) ++
        (analyze_changes cfg hsh st st1).2.1).Perm (st1.map MethodInfo.full_id) ∧
    ((analyze_changes cfg hsh st st1).1.map (fun mm => mm.method_t.full_id)).Nodup ∧
    ((analyze_changes cfg hsh st st1).1.map (fun mm => mm.method_t1.full_id)).Nodup ∧
    (∀ mm ∈ find_exact_matches st st1, mm ∈ (analyze_changes cfg hsh st st1).1) := by
  simp only [analyze_changes]
  set E := find_exact_matches st st1 with hE
  set mT := E.map (fun mm => mm.method_t.full_id) with hmT
  set mT1 := E.map (fun mm => mm.method_t1.full_id) with hmT1
  set UT := st.filter (fun m => !(mT.contains m.full_id)) with hUT
  set UT1 := st1.filter (fun m => !(mT1.contains m.full_id)) with hUT1
  set TM := (if UT ≠ [] ∧ UT1 ≠ [] then find_token_hash_matches UT UT1 else [])
    with hTM
  set mT2 := mT ++ TM.map (fun mm => mm.method_t.full_id) with hmT2
  set mT12 := mT1 ++ TM.map (fun mm => mm.method_t1.full_id) with hmT12
  set UT2 := st.filter (fun m => !(mT2.contains m.full_id)) with hUT2
  set UT12 := st1.filter (fun m => !(mT12.contains m.full_id)) with hUT12
  set SM := (if cfg.use_similarity ∧ UT2 ≠ [] ∧ UT12 ≠ [] then
      find_similarity_matches cfg hsh UT2 UT12
    else []) with hSM
  -- exact-stage facts
  have hEmem := find_exact_mem st st1
  have hmT_nodup : mT.Nodup := (find_exact_before_sublist st st1).nodup hn
  have hmT1_eq : mT1 = mT :=
    List.map_congr_left (fun mm hmm => (hEmem mm hmm).2.2.1)
  have hmT1_nodup : mT1.Nodup := hmT1_eq ▸ hmT_nodup
  have hmT_sub : ∀ x ∈ mT, x ∈ st.map MethodInfo.full_id :=
    fun x hx => (find_exact_before_sublist st st1).subset hx
  have hmT1_sub : ∀ x ∈ mT1, x ∈ st1.map MethodInfo.full_id := by
    intro x hx
    rw [hmT1, List.mem_map] at hx
    obtain ⟨mm, hmm, rfl⟩ := hx
    exact List.mem_map_of_mem MethodInfo.full_id (hEmem mm hmm).2.1
  -- unmatched-1 facts
  have hUT_nodup : (UT.map MethodInfo.full_id).Nodup :=
    ((List.filter_sublist st).map MethodInfo.full_id).nodup hn
  have hUT1_nodup : (UT1.map MethodInfo.full_id).Nodup :=
    ((List.filter_sublist st1).map MethodInfo.full_id).nodup hn1
  -- token-stage facts
  have hTM_mem : ∀ mm ∈ TM, mm.method_t ∈ UT ∧ mm.method_t1 ∈ UT1 := by
    rw [hTM]
    split_ifs with hc
    · intro mm hmm
      have := find_token_mem UT UT1 mm hmm
      exact ⟨this.1, this.2.1⟩
    · intro mm hmm
      exact absurd hmm (List.not_mem_nil mm)
  have hTM_before_nodup : (TM.map (fun mm => mm.method_t.full_id)).Nodup := by
    rw [hTM]
    split_ifs with hc
    · exact find_token_nodup_before UT UT1 hUT_nodup
    · exact List.nodup_nil
  have hTM_after_nodup : (TM.map (fun mm => mm.method_t1.full_id)).Nodup := by
    rw [hTM]
    split_ifs with hc
    · exact find_token_nodup_after UT UT1 hUT1_nodup
    · exact List.nodup_nil
  have hTM_before_notin : ∀ x ∈ TM.map (fun mm => mm.method_t.full_id), x ∉ mT := by
    intro x hx
    rw [List.mem_map] at hx
    obtain ⟨mm, hmm, rfl⟩ := hx
    have hmem := (hTM_mem mm hmm).1
    rw [hUT, List.mem_filter] at hmem
    exact not_contains_iff.mp hmem.2
  have hTM_after_notin : ∀ x ∈ TM.map (fun mm => mm.method_t1.full_id), x ∉ mT1 := by
    intro x hx
    rw [List.mem_map] at hx
    obtain ⟨mm, hmm, rfl⟩ := hx
    have hmem := (hTM_mem mm hmm).2
    rw [hUT1, List.mem_filter] at hmem
    exact not_contains_iff.mp hmem.2
  have hTM_before_sub : ∀ x ∈ TM.map (fun mm => mm.method_t.full_id),
      x ∈ st.map MethodInfo.full_id := by
    intro x hx
    rw [List.mem_map] at hx
    obtain ⟨mm, hmm, rfl⟩ := hx
    have hmem := (hTM_mem mm hmm).1
    rw [hUT, List.mem_filter] at hmem
    exact List.mem_map_of_mem MethodInfo.full_id hmem.1
  have hTM_after_sub : ∀ x ∈ TM.map (fun mm => mm.method_t1.full_id),
      x ∈ st1.map MethodInfo.full_id := by
    intro x hx
    rw [List.mem_map] at hx
    obtain ⟨mm, hmm, rfl⟩ := hx
    have hmem := (hTM_mem mm hmm).2
    rw [hUT1, List.mem_filter] at hmem
    exact List.mem_map_of_mem MethodInfo.full_id hmem.1
  -- combined after stage 2
  have hmT2_nodup : mT2.Nodup := by
    rw [hmT2, List.nodup_append]
    exact ⟨hmT_nodup, hTM_before_nodup, fun x hx hx' => hTM_before_notin x hx' hx⟩
  have hmT12_nodup : mT12.Nodup := by
    rw [hmT12, List.nodup_append]
    exact ⟨hmT1_nodup, hTM_after_nodup, fun x hx hx' => hTM_after_notin x hx' hx⟩
  have hmT2_sub : ∀ x ∈ mT2, x ∈ st.map MethodInfo.full_id := by
    intro x hx
    rw [hmT2, List.mem_append] at hx
    rcases hx with hx | hx
    · exact hmT_sub x hx
    · exact hTM_before_sub x hx
  have hmT12_sub : ∀ x ∈ mT12, x ∈ st1.map MethodInfo.full_id := by
    intro x hx
    rw [hmT12, List.mem_append] at hx
    rcases hx with hx | hx
    · exact hmT1_sub x hx
    · exact hTM_after_sub x hx
  -- similarity-stage facts
  have hSM_mem : ∀ mm ∈ SM, mm.method_t ∈ UT2 ∧ mm.method_t1 ∈ UT12 := by
    rw [hSM]
    split_ifs with hc
    · intro mm hmm
      have := (find_sim_spec cfg hsh UT2 UT12).1 mm hmm
      exact ⟨this.1, this.2.1⟩
    · intro mm hmm
      exact absurd hmm (List.not_mem_nil mm)
  have hSM_before_nodup : (SM.map (fun mm => mm.method_t.full_id)).Nodup := by
    rw [hSM]
    split_ifs with hc
    · exact (find_sim_spec cfg hsh UT2 UT12).2.1
    · exact List.nodup_nil
  have hSM_after_nodup : (SM.map (fun mm => mm.method_t1.full_id)).Nodup := by
    rw [hSM]
    split_ifs with hc
    · exact (find_sim_spec cfg hsh UT2 UT12).2.2
    · exact List.nodup_nil
  have hSM_before_notin : ∀ x ∈ SM.map (fun mm => mm.method_t.full_id), x ∉ mT2 := by
    intro x hx
    rw [List.mem_map] at hx
    obtain ⟨mm, hmm, rfl⟩ := hx
    have hmem := (hSM_mem mm hmm).1
    rw [hUT2, List.mem_filter] at hmem
    exact not_contains_iff.mp hmem.2
  have hSM_after_notin : ∀ x ∈ SM.map (fun mm => mm.method_t1.full_id), x ∉ mT12 := by
    intro x hx
    rw [List.mem_map] at hx
    obtain ⟨mm, hmm, rfl⟩ := hx
    have hmem := (hSM_mem mm hmm).2
    rw [hUT12, List.mem_filter] at hmem
    exact not_contains_iff.mp hmem.2
  have hSM_before_sub : ∀ x ∈ SM.map (fun mm => mm.method_t.full_id),
      x ∈ st.map MethodInfo.full_id := by
    intro x hx
    rw [List.mem_map] at hx
    obtain ⟨mm, hmm, rfl⟩ := hx
    have hmem := (hSM_mem mm hmm).1
    rw [hUT2, List.mem_filter] at hmem
    exact List.mem_map_of_mem MethodInfo.full_id hmem.1
  have hSM_after_sub : ∀ x ∈ SM.map (fun mm => mm.method_t1.full_id),
      x ∈ st1.map MethodInfo.full_id := by
    intro x hx
    rw [List.mem_map] at hx
    obtain ⟨mm, hmm, rfl⟩ := hx
    have hmem := (hSM_mem mm hmm).2
    rw [hUT12, List.mem_filter] at hmem
    exact List.mem_map_of_mem MethodInfo.full_id hmem.1
  -- final combined lists
  have hfinal_before :
      (E ++ TM ++ SM).map (fun mm => mm.method_t.full_id) =
        mT2 ++ SM.map (fun mm => mm.method_t.full_id) := by
    rw [List.map_append, List.map_append, hmT2, hmT]
  have hfinal_after :
      (E ++ TM ++ SM).map (fun mm => mm.method_t1.full_id) =
        mT12 ++ SM.map (fun mm => mm.method_t1.full_id) := by
    rw [List.map_append, List.map_append, hmT12, hmT1]
  have hmT3_nodup : (mT2 ++ SM.map (fun mm => mm.method_t.full_id)).Nodup := by
    rw [List.nodup_append]
    exact ⟨hmT2_nodup, hSM_before_nodup, fun x hx hx' => hSM_before_notin x hx' hx⟩
  have hmT13_nodup : (mT12 ++ SM.map (fun mm => mm.method_t1.full_id)).Nodup := by
    rw [List.nodup_append]
    exact ⟨hmT12_nodup, hSM_after_nodup, fun x hx hx' => hSM_after_notin x hx' hx⟩
  have hmT3_sub : ∀ x ∈ mT2 ++ SM.map (fun mm => mm.method_t.full_id),
      x ∈ st.map MethodInfo.full_id := by
    intro x hx
    rcases List.mem_append.mp hx with hx | hx
    · exact hmT2_sub x hx
    · exact hSM_before_sub x hx
  have hmT13_sub : ∀ x ∈ mT12 ++ SM.map (fun mm => mm.method_t1.full_id),
      x ∈ st1.map MethodInfo.full_id := by
    intro x hx
    rcases List.mem_append.mp hx with hx | hx
    · exact hmT12_sub x hx
    · exact hSM_after_sub x hx
  refine ⟨?_, ?_, ?_, ?_, ?_⟩
  · rw [hfinal_before]
    exact matched_filter_perm hn hmT3_nodup hmT3_sub
  · rw [hfinal_after]
    exact matched_filter_perm hn1 hmT13_nodup hmT13_sub
  · rw [hfinal_before]
    exact hmT3_nodup
  · rw [hfinal_after]
    exact hmT13_nodup
  · intro mm hmm
    exact List.mem_append_left _ (List.mem_append_left _ hmm)

/-! ### Sample records used by concrete witnesses -/

def sample_a : MethodInfo := ⟨"a.py", 1, 2, "f", "int", "x", "c0", "h1", none⟩

def sample_b : MethodInfo := ⟨"a.py", 3, 4, "g", "int", "x", "c1", "h1", none⟩

def sample_a1 : MethodInfo := ⟨"a.py", 1, 2, "f", "int", "x", "c9", "h9", none⟩

def sample_s : MethodInfo :=
  ⟨"a.py", 1, 9, "f", "int", "x", "c0", "hs", some [1, 2, 3, 4, 5, 6, 7, 8, 9, 10]⟩

def sample_s1 : MethodInfo :=
  ⟨"b.py", 1, 9, "g", "int", "y", "c1", "ht", some [1, 2, 3, 4, 5, 6, 7, 8, 9, 10]⟩

def sample_hash : List ℤ → ℤ := fun l => l.foldl (fun acc x => acc * 31 + x) 7

/-- Modelled from the spec: §6 requires `gram_size: integer ≥ 1` and §7 says
input-shape violations such as a negative `gram_size` "must be rejected at
configuration-validation time". No such validation exists anywhere in the
source (`SimilarityCalculator.__init__` stores the value unchanged and
`MethodTracker.__init__` performs no check); this Boolean is the validation
predicate the spec describes, used to compare spec against code. -/
def spec_validate_gram_size (g : ℤ) : Bool := decide (1 ≤ g)

/-! ### Claim theorems -/

/-- Claim C1 (counterexample): at `a = b = [1..10]`, `calc_lcs_similarity`
does not return `lcs_length / min(len a, len b)` (which is `10/10 = 1`):
it returns the integer percentage `100`. -/
theorem lcs_similarity_not_ratio :
    ¬ ((calc_lcs_similarity [1, 2, 3, 4, 5, 6, 7, 8, 9, 10] [1, 2, 3, 4, 5, 6, 7, 8, 9, 10] : ℚ) =
      (hunt_szymanski_lcs [1, 2, 3, 4, 5, 6, 7, 8, 9, 10] [1, 2, 3, 4, 5, 6, 7, 8, 9, 10] : ℚ) /
        (min ([1, 2, 3, 4, 5, 6, 7, 8, 9, 10] : List ℤ).length
          ([1, 2, 3, 4, 5, 6, 7, 8, 9, 10] : List ℤ).length : ℚ)) := by
  intro h
  rw [show calc_lcs_similarity [1, 2, 3, 4, 5, 6, 7, 8, 9, 10]
      [1, 2, 3, 4, 5, 6, 7, 8, 9, 10] = 100 from by decide,
    show hunt_szymanski_lcs [1, 2, 3, 4, 5, 6, 7, 8, 9, 10]
      [1, 2, 3, 4, 5, 6, 7, 8, 9, 10] = 10 from by decide,
    show ([1, 2, 3, 4, 5, 6, 7, 8, 9, 10] : List ℤ).length = 10 from by decide] at h
  rw [min_self] at h
  norm_num at h

/-- Claim C1 (amended): `_hunt_szymanski_lcs` returns exactly the length of
a longest common subsequence (element order preserved, gaps allowed), and
`calc_lcs_similarity` returns the integer percentage
`lcs_length * 100 // min(len a, len b)` (0 when either sequence is empty):
for `a = b = [1..10]` the LCS length is 10 and the similarity is 100 (the
maximal value), and for disjoint sequences both are 0. -/
theorem hunt_szymanski_computes_lcs :
    (∀ a b : List ℤ,
      (∃ c : List ℤ, c.Sublist a ∧ c.Sublist b ∧ c.length = hunt_szymanski_lcs a b) ∧
      ∀ c : List ℤ, c.Sublist a → c.Sublist b → c.length ≤ hunt_szymanski_lcs a b) ∧
    (∀ a b : List ℤ, a ≠ [] → b ≠ [] →
      calc_lcs_similarity a b = hunt_szymanski_lcs a b * 100 / min a.length b.length) ∧
    (∀ a b : List ℤ, a = [] ∨ b = [] → calc_lcs_similarity a b = 0) ∧
    hunt_szymanski_lcs [1, 2, 3, 4, 5, 6, 7, 8, 9, 10] [1, 2, 3, 4, 5, 6, 7, 8, 9, 10] = 10 ∧
    calc_lcs_similarity [1, 2, 3, 4, 5, 6, 7, 8, 9, 10] [1, 2, 3, 4, 5, 6, 7, 8, 9, 10] = 100 ∧
    hunt_szymanski_lcs [1, 2, 3, 4, 5] [10, 20, 30, 40, 50] = 0 ∧
    calc_lcs_similarity [1, 2, 3, 4, 5] [10, 20, 30, 40, 50] = 0 := by
  refine ⟨?_, ?_, ?_, by decide, by decide, by decide, by decide⟩
  · intro a b
    constructor
    · obtain ⟨c, h1, h2, h3⟩ := lcsLen_exists a b
      exact ⟨c, h1, h2, by rw [hunt_szymanski_lcs_eq]; exact h3⟩
    · intro c h1 h2
      rw [hunt_szymanski_lcs_eq]
      exact lcsLen_le a b c h1 h2
  · intro a b ha hb
    simp only [calc_lcs_similarity]
    rw [if_neg (show ¬(a = [] ∨ b = []) by simp [ha, hb])]
    rw [if_pos (show 0 < min a.length b.length from
      lt_min (List.length_pos.mpr ha) (List.length_pos.mpr hb))]
  · intro a b h
    simp only [calc_lcs_similarity]
    rw [if_pos h]

theorem hunt_szymanski_computes_lcs_witness :
    calc_lcs_similarity [1, 2] [1, 2, 3] =
      hunt_szymanski_lcs [1, 2] [1, 2, 3] * 100 /
        min ([1, 2] : List ℤ).length ([1, 2, 3] : List ℤ).length :=
  hunt_szymanski_computes_lcs.2.1 [1, 2] [1, 2, 3] (by decide) (by decide)

/-- Claim C2: the matching in `analyze_changes` is a partial injection and,
together with the `added`/`deleted` sets, partitions both snapshots: the
matched before-ids followed by the deleted ids are a permutation of the
before snapshot's key list (so every key occurs in exactly one of the two,
and in at most one match), symmetrically for the after side, and no key
occurs twice on the same side of the match list. -/
theorem analyze_changes_partition (cfg : TrackerConfig) (hsh : List ℤ → ℤ)
    (snapshot_t snapshot_t1 : List MethodInfo)
    (hn : (snapshot_t.map MethodInfo.full_id).Nodup)
    (hn1 : (snapshot_t1.map MethodInfo.full_id).Nodup) :
    ((analyze_changes cfg hsh snapshot_t snapshot_t1).1.map (fun mm => mm.method_t.full_id) ++
        (analyze_changes cfg hsh snapshot_t snapshot_t1).2.2).Perm
      (snapshot_t.map MethodInfo.full_id) ∧
    ((analyze_changes cfg hsh snapshot_t snapshot_t1).1.map (fun mm => mm.method_t1.full_id) ++
        (analyze_changes cfg hsh snapshot_t snapshot_t1).2.1).Perm
      (snapshot_t1.map MethodInfo.full_id) ∧
    ((analyze_changes cfg hsh snapshot_t snapshot_t1).1.map
      (fun mm => mm.method_t.full_id)).Nodup ∧
    ((analyze_changes cfg hsh snapshot_t snapshot_t1).1.map
      (fun mm => mm.method_t1.full_id)).Nodup := by
  obtain ⟨h1, h2, h3, h4, _⟩ := analyze_changes_spec cfg hsh snapshot_t snapshot_t1 hn hn1
  exact ⟨h1, h2, h3, h4⟩

theorem analyze_changes_partition_witness :
    ((analyze_changes default_tracker_config sample_hash [sample_a] [sample_b]).1.map
        (fun mm => mm.method_t.full_id) ++
      (analyze_changes default_tracker_config sample_hash [sample_a] [sample_b]).2.2).Perm
      (([sample_a] : List MethodInfo).map MethodInfo.full_id) :=
  (analyze_changes_partition default_tracker_config sample_hash [sample_a] [sample_b]
    (by decide) (by decide)).1

/-- Claim C3 (counterexample): the similarity functions do not return values
in `[0, 1]`: `calc_lcs_similarity [1] [1]` is `100`. -/
theorem similarity_range_exceeds_unit :
    calc_lcs_similarity [1] [1] = 100 ∧ ¬ ((calc_lcs_similarity [1] [1] : ℚ) ≤ 1) := by
  constructor
  · decide
  · rw [show calc_lcs_similarity [1] [1] = 100 from by decide]
    norm_num

/-- Claim C3 (amended): for all inputs (including empty sequences and every
gram size, even invalid ones) both similarity functions return an integer
percentage in `[0, 100]`. -/
theorem similarity_range_0_100 :
    ∀ (hsh : List ℤ → ℤ) (gram_size : ℤ) (a b : List ℤ),
      calc_ngram_similarity hsh gram_size a b ≤ 100 ∧ calc_lcs_similarity a b ≤ 100 :=
  fun hsh g a b => ⟨calc_ngram_similarity_le_100 hsh g a b, calc_lcs_similarity_le_100 a b⟩

/-- Claim C4 (counterexample): the default thresholds consumed by the core
are the integers 10 and 70, not floats 0.10 and 0.70, and no division by
100 is applied to them. -/
theorem default_thresholds_not_fractions :
    ((default_tracker_config.ngram_threshold : ℚ) ≠ 1 / 10) ∧
    ((default_tracker_config.lcs_threshold : ℚ) ≠ 7 / 10) := by
  constructor <;> norm_num [default_tracker_config]

/-- Claim C4 (amended): the thresholds are integer percentages with defaults
`ngram_threshold = 10` and `lcs_threshold = 70` (similarity disabled by
default), the tracker's gram size is hard-coded to 5, and the core compares
the thresholds directly against the integer percentage scores: every
similarity match records `ls / 100` for an integer score `ls` with
`lcs_threshold ≤ ls ≤ 100` — no threshold is divided by 100. -/
theorem tracker_thresholds_percent_scale :
    default_tracker_config.ngram_threshold = 10 ∧
    default_tracker_config.lcs_threshold = 70 ∧
    default_tracker_config.use_similarity = false ∧
    tracker_gram_size = 5 ∧
    (∀ (cfg : TrackerConfig) (hsh : List ℤ → ℤ) (ut ut1 : List MethodInfo),
      ∀ mm ∈ find_similarity_matches cfg hsh ut ut1,
        ∃ ls : ℕ, mm.similarity = (ls : ℚ) / 100 ∧ cfg.lcs_threshold ≤ (ls : ℤ) ∧ ls ≤ 100) := by
  refine ⟨rfl, rfl, rfl, rfl, ?_⟩
  intro cfg hsh ut ut1 mm hmm
  obtain ⟨_, _, ls, h1, h2, h3, _⟩ := (find_sim_spec cfg hsh ut ut1).1 mm hmm
  exact ⟨ls, h1, h2, h3⟩

theorem sample_sim_matches_eval :
    find_similarity_matches ⟨true, 10, 70⟩ sample_hash [sample_s] [sample_s1] =
      [⟨sample_s, sample_s1, "moved", ((100 : ℕ) : ℚ) / 100⟩] := by
  have hng : calc_ngram_similarity sample_hash tracker_gram_size (token_seq sample_s)
      (token_seq sample_s1) = 100 := by decide
  have hlcs : calc_lcs_similarity (token_seq sample_s) (token_seq sample_s1) = 100 := by
    decide
  have hbest : sim_best_match ⟨true, 10, 70⟩ sample_hash sample_s [] [sample_s1] =
      some (sample_s1, 100) := by
    simp only [sim_best_match, List.foldl_cons, List.foldl_nil, sim_scan_step]
    rw [if_neg (show ¬ sample_s1.full_id ∈ ([] : List String) by simp)]
    rw [hng]
    rw [if_neg (show ¬ ((100 : ℕ) : ℤ) <
      (⟨true, 10, 70⟩ : TrackerConfig).ngram_threshold by norm_num)]
    rw [hlcs]
    rw [if_pos (show (⟨true, 10, 70⟩ : TrackerConfig).lcs_threshold ≤ ((100 : ℕ) : ℤ) ∧
      0 < 100 by norm_num)]
  simp only [find_similarity_matches]
  rw [if_neg (show ¬ ¬ True from not_not_intro trivial)]
  rw [show List.filter (fun m => !(token_seq m == [])) [sample_s] = [sample_s] from by decide]
  rw [show List.filter (fun m => !(token_seq m == [])) [sample_s1] = [sample_s1] from by decide]
  simp only [List.foldl_cons, List.foldl_nil, sim_commit_step]
  rw [if_neg (show ¬ sample_s.full_id ∈ ([] : List String) by simp)]
  rw [hbest]
  simp only [List.nil_append]
  rw [show sim_classify sample_s sample_s1 100 = "moved" from by decide]

theorem tracker_thresholds_percent_scale_witness :
    ∃ ls : ℕ,
      (⟨sample_s, sample_s1, "moved", ((100 : ℕ) : ℚ) / 100⟩ : MethodMatch).similarity =
        (ls : ℚ) / 100 ∧
      (⟨true, 10, 70⟩ : TrackerConfig).lcs_threshold ≤ (ls : ℤ) ∧ ls ≤ 100 :=
  tracker_thresholds_percent_scale.2.2.2.2 ⟨true, 10, 70⟩ sample_hash [sample_s] [sample_s1]
    ⟨sample_s, sample_s1, "moved", ((100 : ℕ) : ℚ) / 100⟩
    (by rw [sample_sim_matches_eval]; exact List.mem_singleton_self _)

/-- Claim C5: records sharing an identity key are paired by stage 1 with
match type `"exact"` and similarity `1.0`, and no other match (from the
content-hash or similarity stages) ever touches either record's key. -/
theorem exact_match_precedence (cfg : TrackerConfig) (hsh : List ℤ → ℤ)
    (snapshot_t snapshot_t1 : List MethodInfo)
    (hn : (snapshot_t.map MethodInfo.full_id).Nodup)
    (hn1 : (snapshot_t1.map MethodInfo.full_id).Nodup)
    (m m1 : MethodInfo) (hm : m ∈ snapshot_t) (hm1 : m1 ∈ snapshot_t1)
    (hid : m1.full_id = m.full_id) :
    (⟨m, m1, "exact", 1⟩ : MethodMatch) ∈ (analyze_changes cfg hsh snapshot_t snapshot_t1).1 ∧
    (∀ mm ∈ (analyze_changes cfg hsh snapshot_t snapshot_t1).1,
      mm.method_t.full_id = m.full_id → mm = ⟨m, m1, "exact", 1⟩) ∧
    (∀ mm ∈ (analyze_changes cfg hsh snapshot_t snapshot_t1).1,
      mm.method_t1.full_id = m1.full_id → mm = ⟨m, m1, "exact", 1⟩) := by
  obtain ⟨_, _, hnd1, hnd2, hmem⟩ := analyze_changes_spec cfg hsh snapshot_t snapshot_t1 hn hn1
  have hex : (⟨m, m1, "exact", 1⟩ : MethodMatch) ∈ find_exact_matches snapshot_t snapshot_t1 :=
    find_exact_complete hn1 hm hm1 hid
  have hall := hmem _ hex
  refine ⟨hall, ?_, ?_⟩
  · intro mm hmm heq
    exact List.inj_on_of_nodup_map hnd1 hmm hall (by simpa using heq)
  · intro mm hmm heq
    exact List.inj_on_of_nodup_map hnd2 hmm hall (by simpa using heq)

theorem exact_match_precedence_witness :
    (⟨sample_a, sample_a1, "exact", 1⟩ : MethodMatch) ∈
      (analyze_changes default_tracker_config sample_hash [sample_a] [sample_a1]).1 :=
  (exact_match_precedence default_tracker_config sample_hash [sample_a] [sample_a1]
    (by decide) (by decide) sample_a sample_a1 (by decide) (by decide) (by decide)).1

/-- Claim C6 (counterexample): the identity law with value `1.0` fails on the
code: for `a = [1]`, `calc_lcs_similarity a a = 100 ≠ 1`, and with the
default `gram_size = 5`, `calc_ngram_similarity a a = 0 ≠ 1`. -/
theorem identity_not_one :
    ¬ (calc_lcs_similarity [1] [1] = 1 ∧
      calc_ngram_similarity (fun _ => 0) 5 [1] [1] = 1) := by
  decide

/-- Claim C6 (amended): for every non-empty sequence `a`,
`calc_lcs_similarity a a = 100`; `calc_ngram_similarity a a = 100` when `a`
has at least `gram_size` tokens and `0` when it is shorter. -/
theorem identity_percent :
    ∀ (hsh : List ℤ → ℤ) (gram_size : ℤ) (a : List ℤ), a ≠ [] →
      calc_lcs_similarity a a = 100 ∧
      (¬ ((a.length : ℤ) < gram_size) → calc_ngram_similarity hsh gram_size a a = 100) ∧
      (((a.length : ℤ) < gram_size) → calc_ngram_similarity hsh gram_size a a = 0) := by
  intro hsh g a ha
  refine ⟨calc_lcs_self a ha, fun hg => calc_ngram_self hsh g a ha hg, fun hg => ?_⟩
  simp only [calc_ngram_similarity]
  rw [if_neg (show ¬(a = [] ∨ a = []) by simp [ha])]
  rw [if_pos (show create_ngrams hsh g a = ∅ ∨ create_ngrams hsh g a = ∅ from
    Or.inl (by rw [create_ngrams, if_pos hg]))]

theorem identity_percent_witness :
    calc_lcs_similarity [1, 2, 3, 4, 5] [1, 2, 3, 4, 5] = 100 ∧
    calc_ngram_similarity (fun _ => 0) 5 [1, 2, 3, 4, 5] [1, 2, 3, 4, 5] = 100 :=
  ⟨(identity_percent (fun _ => 0) 5 [1, 2, 3, 4, 5] (by decide)).1,
    (identity_percent (fun _ => 0) 5 [1, 2, 3, 4, 5] (by decide)).2.1 (by decide)⟩

/-- Claim C7: both similarity functions are symmetric in their two sequence
arguments, for every hash function and gram size, including sequences of
equal length (where the code assigns the shorter/longer roles differently
in the two calls). -/
theorem similarity_symmetric :
    ∀ (hsh : List ℤ → ℤ) (gram_size : ℤ) (a b : List ℤ),
      calc_lcs_similarity a b = calc_lcs_similarity b a ∧
      calc_ngram_similarity hsh gram_size a b = calc_ngram_similarity hsh gram_size b a :=
  fun hsh g a b => ⟨calc_lcs_comm a b, calc_ngram_comm hsh g a b⟩

/-- Claim C8: a sequence with fewer than `gram_size` tokens has an empty
N-gram set, and any `calc_ngram_similarity` call involving it returns 0
regardless of the other input (in particular length 4 with gram size 5). -/
theorem ngram_short_sequence_zero :
    ∀ (hsh : List ℤ → ℤ) (gram_size : ℤ) (tokens other : List ℤ),
      (tokens.length : ℤ) < gram_size →
      create_ngrams hsh gram_size tokens = ∅ ∧
      calc_ngram_similarity hsh gram_size tokens other = 0 ∧
      calc_ngram_similarity hsh gram_size other tokens = 0 := by
  intro hsh g tokens other hlt
  have hempty : create_ngrams hsh g tokens = ∅ := by rw [create_ngrams, if_pos hlt]
  refine ⟨hempty, ?_, ?_⟩
  · simp only [calc_ngram_similarity]
    by_cases hto : tokens = [] ∨ other = []
    · rw [if_pos hto]
    · rw [if_neg hto, if_pos (Or.inl hempty)]
  · simp only [calc_ngram_similarity]
    by_cases hto : other = [] ∨ tokens = []
    · rw [if_pos hto]
    · rw [if_neg hto, if_pos (Or.inr hempty)]

theorem ngram_short_sequence_zero_witness :
    create_ngrams (fun _ => 0) 5 [1, 2, 3, 4] = ∅ ∧
    calc_ngram_similarity (fun _ => 0) 5 [1, 2, 3, 4] [1, 2, 3, 4, 5] = 0 ∧
    calc_ngram_similarity (fun _ => 0) 5 [1, 2, 3, 4, 5] [1, 2, 3, 4] = 0 :=
  ngram_short_sequence_zero (fun _ => 0) 5 [1, 2, 3, 4] [1, 2, 3, 4, 5] (by decide)

/-- Claim C9 (counterexample): a negative `gram_size` is not rejected at
configuration time: `SimilarityCalculator.__init__` stores `-1` unchanged
(the spec-modelled validation marks it invalid) and the calculator then
silently produces similarity scores with it. -/
theorem negative_gram_size_accepted :
    spec_validate_gram_size (SimilarityCalculator.init (-1)).gram_size = false ∧
    calc_ngram_similarity (fun _ => 0) (SimilarityCalculator.init (-1)).gram_size
      [1, 2] [1, 2] = 100 := by
  exact ⟨rfl, by decide⟩

/-- Claim C9 (amended): the code performs no configuration validation at
all: the constructor stores any `gram_size` (including negative values)
unchanged, similarity scores are still produced for it (for every hash
function), and the only gram size the tracker ever uses is the hard-coded
5, so the invalid case is unreachable through `MethodTracker` itself. -/
theorem gram_size_never_validated :
    (∀ g : ℤ, (SimilarityCalculator.init g).gram_size = g) ∧
    (∀ hsh : List ℤ → ℤ,
      calc_ngram_similarity hsh (SimilarityCalculator.init (-1)).gram_size [1, 2] [1, 2] = 100) ∧
    tracker_gram_size = 5 := by
  refine ⟨fun g => rfl, fun hsh => ?_, rfl⟩
  exact calc_ngram_self hsh (-1) [1, 2] (by decide) (by decide)

/-- Claim C10: the content-hash stage never pairs a record whose
`token_hash` is the empty string — every produced match carries a non-empty
hash on both sides (and equal hashes); empty-hash records fall through to
the later stages or to the added/deleted accounting. -/
theorem token_hash_empty_excluded :
    ∀ (unmatched_t unmatched_t1 : List MethodInfo),
      ∀ mm ∈ find_token_hash_matches unmatched_t unmatched_t1,
        mm.method_t.token_hash ≠ "" ∧ mm.method_t1.token_hash ≠ "" ∧
        mm.method_t.token_hash = mm.method_t1.token_hash := by
  intro ut ut1 mm hmm
  obtain ⟨_, _, h1, h2, h3, _, _⟩ := find_token_mem ut ut1 mm hmm
  exact ⟨h1, h2, h3⟩

theorem token_hash_empty_excluded_witness :
    (⟨sample_a, sample_b, "token_hash", 1⟩ : MethodMatch).method_t.token_hash ≠ "" ∧
    (⟨sample_a, sample_b, "token_hash", 1⟩ : MethodMatch).method_t1.token_hash ≠ "" ∧
    (⟨sample_a, sample_b, "token_hash", 1⟩ : MethodMatch).method_t.token_hash =
      (⟨sample_a, sample_b, "token_hash", 1⟩ : MethodMatch).method_t1.token_hash :=
  token_hash_empty_excluded [sample_a] [sample_b] ⟨sample_a, sample_b, "token_hash", 1⟩
    (by decide)

end NIL
